import Mathlib

/-!
Verification development for the transcendental-crypto repository.

The Python sources are shallowly embedded as Lean functions:

* `src/transcendental/digits.py`  — `DigitStore.get_pi_digits` / `get_e_digits`
  (both methods have identical bodies; one embedding `getDigits` serves both,
  parameterised by the backing file's bytes),
* `src/transcendental/streams.py` — offset derivation from a seed (via numpy's
  legacy `RandomState`, i.e. the MT19937 generator with masked rejection
  sampling), chunked synthetic-stream generation, and `StreamGenerator`,
* `src/transcendental/patterns.py`— `Pattern`, `match_at_position`, the
  sequential and parallel searches, follow-digit extraction and the SHA-256
  hash of follow sequences,
* `src/crypto/keys.py`            — `PrivateKey`, `PublicKey`,
  `get_public_key` and `verify_key_pair`.

Machine integers are modelled as `Nat` with explicit `% 2 ^ 32` (MT19937 words)
and `% 256` (numpy `uint8` arithmetic).  Python exceptions are modelled as
`Option`/`Except` failures.  `while` loops whose termination depends on the
data are given explicit fuel; exhausting the fuel models divergence and
returns `none`.
-/

set_option maxRecDepth 100000

namespace TCrypt

/-! ## Digit store (`src/transcendental/digits.py`)

The backing file (`pi_1m.txt` / `e_1m.txt`) is modelled as a `List Nat` of
byte values.  `chr(byte).isdigit()` is modelled as the ASCII digit test
`48 ≤ b ≤ 57`; Python's `str.isdigit` additionally accepts the bytes
178/179/185 (superscript digits, on which the subsequent `int(char)` would
raise), which cannot occur in the digit files in scope. -/

def isDigitByte (b : Nat) : Bool := 48 ≤ b && b ≤ 57

def digitVal (b : Nat) : Nat := b - 48

/-- Position of the first `'.'` byte (byte 46); `file.length` when absent.
Models the scan `while pos < len and chr(mmap[pos]) != '.': pos += 1`. -/
def dotPos (file : List Nat) : Nat := file.findIdx (fun b => b = 46)

/-- One iteration of the digit-skipping phase of `get_pi_digits`:
`while pos < len: char = mmap[pos]; pos += 1; if char.isdigit(): break;
if pos >= len: pos = 0`.  Returns the cursor after consuming one digit.
When the cursor is already at or past the end of the file the loop guard
fails immediately and no digit is consumed (the cursor "stalls"). -/
def skipOne (file : List Nat) : Nat → Nat → Option Nat
  | 0, _ => none
  | fuel + 1, pos =>
    if pos < file.length then
      let c := file.getD pos 0
      if isDigitByte c then some (pos + 1)
      else if file.length ≤ pos + 1 then skipOne file fuel 0
      else skipOne file fuel (pos + 1)
    else some pos

/-- The skipping phase: `for _ in range(start):` of the inner loop above. -/
def skipN (file : List Nat) (fuel : Nat) : Nat → Nat → Option Nat
  | 0, pos => some pos
  | n + 1, pos =>
    match skipOne file fuel pos with
    | none => none
    | some pos' => skipN file fuel n pos'

/-- One iteration of the reading phase: wrap the cursor to 0 at the end of
the file, then scan for the next digit byte.  Reading from an empty file is
an error (Python would index an empty mmap). -/
def readOne (file : List Nat) : Nat → Nat → Option (Nat × Nat)
  | 0, _ => none
  | fuel + 1, pos =>
    let pos := if file.length ≤ pos then 0 else pos
    if pos < file.length then
      let c := file.getD pos 0
      if isDigitByte c then some (digitVal c, pos + 1)
      else readOne file fuel (pos + 1)
    else none

/-- The reading phase: `while digit_count < length: ...`. -/
def readN (file : List Nat) (fuel : Nat) : Nat → Nat → Option (List Nat × Nat)
  | 0, pos => some ([], pos)
  | n + 1, pos =>
    match readOne file fuel pos with
    | none => none
    | some (d, pos') =>
      match readN file fuel n pos' with
      | none => none
      | some (ds, pos'') => some (d :: ds, pos'')

/-- `DigitStore.get_pi_digits(start, length)` / `get_e_digits(start, length)`:
validate the arguments (`length <= 0` raises `ValueError`; `start` is a `Nat`
here, matching `start >= 0`), skip to just past the first radix point, skip
`start` digits, then read `length` digits.  The bounded `(start, length)`
cache returns copies and is not observable, so it is not modelled. -/
def getDigits (file : List Nat) (start length fuel : Nat) : Option (List Nat) :=
  if length = 0 then none
  else
    match skipN file fuel start (dotPos file + 1) with
    | none => none
    | some pos =>
      match readN file fuel length pos with
      | none => none
      | some (ds, _) => some ds

/-- The decimal digits stored after the radix point, in order (ignoring any
interspersed non-digit bytes).  This is the specification-level view of a
digit file used to state the claims. -/
def fracDigits (file : List Nat) : List Nat :=
  ((file.drop (dotPos file + 1)).filter isDigitByte).map digitVal

/-! ## Offset derivation (`src/transcendental/streams.py`,
`_generate_offsets_from_seed`)

The Python code is `np.random.RandomState(seed).randint(0, 10**9, size=count)`.
numpy's legacy `RandomState` accepts an integer seed only in `[0, 2^32)`
(larger seeds raise `ValueError: Seed must be between 0 and 2**32 - 1`); the
generator is MT19937 with Knuth-style scalar seeding, and `randint` over a
range that fits in 32 bits draws 32-bit words and applies masked rejection
sampling (`legacy` / `use_masked` path of `random_bounded_uint64_fill`).
Those numpy internals are embedded here because the claims are about the
concrete offsets the repository derives. -/

/-- MT19937 state: 624 words of 32 bits plus the read position. -/
structure MTState where
  key : List Nat
  pos : Nat

/-- Knuth-style scalar seeding `mt19937_seed`:
`key[0] = seed; key[i] = (1812433253 * (key[i-1] ^ (key[i-1] >> 30)) + i)`
(all mod `2^32`), and the read position starts saturated at 624. -/
def mtInitKey (s i : Nat) : Nat → List Nat
  | 0 => []
  | n + 1 => s :: mtInitKey ((1812433253 * (s ^^^ (s >>> 30)) + i + 1) % 2 ^ 32) (i + 1) n

def mtInit (seed : Nat) : MTState := ⟨mtInitKey (seed % 2 ^ 32) 0 624, 624⟩

/-- One step of the MT19937 state twist (in-place update of word `i`). -/
def mtTwistStep (key : List Nat) (i : Nat) : List Nat :=
  let y := (key.getD i 0 &&& 2147483648) ||| (key.getD ((i + 1) % 624) 0 &&& 2147483647)
  let v := key.getD ((i + 397) % 624) 0 ^^^ (y >>> 1) ^^^ (if y % 2 = 1 then 2567483615 else 0)
  key.set i v

def mtTwist (key : List Nat) : List Nat :=
  (List.range 624).foldl mtTwistStep key

/-- MT19937 output tempering. -/
def mtTemper (y : Nat) : Nat :=
  let y := y ^^^ (y >>> 11)
  let y := y ^^^ ((y <<< 7) &&& 2636928640)
  let y := y ^^^ ((y <<< 15) &&& 4022730752)
  y ^^^ (y >>> 18)

/-- Draw one 32-bit word (`genrand_int32`). -/
def mtNext (s : MTState) : Nat × MTState :=
  let s := if 624 ≤ s.pos then MTState.mk (mtTwist s.key) 0 else s
  (mtTemper (s.key.getD s.pos 0), ⟨s.key, s.pos + 1⟩)

/-- Smallest mask `2^k - 1 ≥ rng` (the bit-smearing `_gen_mask`). -/
def genMask (rng : Nat) : Nat :=
  let m := rng ||| (rng >>> 1)
  let m := m ||| (m >>> 2)
  let m := m ||| (m >>> 4)
  let m := m ||| (m >>> 8)
  let m := m ||| (m >>> 16)
  m ||| (m >>> 32)

/-- Masked rejection sampling over `[0, rng]` with 32-bit draws:
`while ((val = (next32() & mask)) > rng);`.  The loop has no intrinsic bound,
so it carries fuel; `none` models non-termination within the fuel. -/
def randBounded (rng mask : Nat) : Nat → MTState → Option (Nat × MTState)
  | 0, _ => none
  | fuel + 1, s =>
    let (v, s') := mtNext s
    let val := v &&& mask
    if val ≤ rng then some (val, s') else randBounded rng mask fuel s'

/-- `count` successive bounded draws (`randint(0, 10**9, size=count)`). -/
def randBoundedMany (rng mask : Nat) (fuel : Nat) : Nat → MTState → Option (List Nat × MTState)
  | 0, s => some ([], s)
  | n + 1, s =>
    match randBounded rng mask fuel s with
    | none => none
    | some (v, s') =>
      match randBoundedMany rng mask fuel n s' with
      | none => none
      | some (vs, s'') => some (v :: vs, s'')

/-- `_generate_offsets_from_seed(seed, count)`:
`rng = np.random.RandomState(seed)` (raises for `seed ≥ 2^32`, modelled as
`none`), then `rng.randint(0, 1_000_000_000, size=count).tolist()`. -/
def generateOffsetsFromSeed (seed count fuel : Nat) : Option (List Nat) :=
  if 2 ^ 32 ≤ seed then none
  else
    match randBoundedMany (1000000000 - 1) (genMask (1000000000 - 1)) fuel count (mtInit seed) with
    | none => none
    | some (vs, _) => some vs

/-! ## Synthetic stream generation (`src/transcendental/streams.py`) -/

/-- `_generate_stream_chunk(start, end, pi_offsets, e_offsets, modulus)`:
start from `np.zeros(end - start, dtype=np.uint8)` and for each offset add
the digits `get_…_digits(offset + start, end - start)` elementwise.  numpy
`uint8` addition wraps at 256 before the `% modulus`. -/
def addOffsetChunk (file : List Nat) (start len modulus fuel : Nat)
    (acc : Option (List Nat)) (offset : Nat) : Option (List Nat) :=
  match acc with
  | none => none
  | some r =>
    match getDigits file (offset + start) len fuel with
    | none => none
    | some ds => some (List.zipWith (fun a d => (a + d) % 256 % modulus) r ds)

def generateStreamChunk (fileA fileB : List Nat) (start stop : Nat)
    (piOffsets eOffsets : List Nat) (modulus fuel : Nat) : Option (List Nat) :=
  let chunkLength := stop - start
  let r := (piOffsets.foldl (addOffsetChunk fileA start chunkLength modulus fuel)
    (some (List.replicate chunkLength 0)))
  eOffsets.foldl (addOffsetChunk fileB start chunkLength modulus fuel) r

/-- `chunks = [(i, min(i + chunk_size, length)) for i in range(0, length, chunk_size)]`. -/
def chunkList (start stop step : Nat) : List (Nat × Nat) :=
  (List.range' start ((stop - start + step - 1) / step) step).map
    (fun i => (max start i, min (i + step) stop))

/-- `generate_synthetic_stream(pi_offsets, e_offsets, length, modulus, threads)`:
split `[0, length)` into chunks of `max(1, length // threads)`, generate each
chunk, and concatenate.  `threads` is the resolved worker count
(`max(1, cpu_count() - 1)` when the caller passes `None`).  An empty chunk
list (i.e. `length = 0`) makes `np.concatenate` raise. -/
def generateSyntheticStream (fileA fileB : List Nat) (piOffsets eOffsets : List Nat)
    (length modulus threads fuel : Nat) : Option (List Nat) :=
  let chunkSize := max 1 (length / threads)
  let chunks := chunkList 0 length chunkSize
  if chunks.isEmpty then none
  else
    (chunks.foldr (fun c acc =>
      match generateStreamChunk fileA fileB c.1 c.2 piOffsets eOffsets modulus fuel, acc with
      | some r, some rs => some (r ++ rs)
      | _, _ => none) (some []))

/-- Errors surfaced by `StreamGenerator.generate`. -/
inductive GenErr where
  | noOffsets : GenErr
  | streamFailure : GenErr
deriving DecidableEq

/-- `StreamGenerator` value state (the stream cache returns copies and is not
observable, so it is not modelled). -/
structure StreamGenerator where
  piOffsets : List Nat
  eOffsets : List Nat
  modulus : Nat
  threads : Nat

/-- `StreamGenerator.generate(length)`: raise `ValueError` (`noOffsets`) when
both offset lists are empty, otherwise run `generate_synthetic_stream`. -/
def StreamGenerator.generate (g : StreamGenerator) (length : Nat)
    (fileA fileB : List Nat) (fuel : Nat) : Except GenErr (List Nat) :=
  if g.piOffsets.isEmpty && g.eOffsets.isEmpty then .error .noOffsets
  else
    match generateSyntheticStream fileA fileB g.piOffsets g.eOffsets length g.modulus g.threads fuel with
    | some s => .ok s
    | none => .error .streamFailure

/-! ## Patterns (`src/transcendental/patterns.py`) -/

/-- A pattern: target digits plus optional inter-digit spacing. -/
structure Pattern where
  digits : List Nat
  spacing : Option (List Nat)
deriving DecidableEq

/-- `Pattern.__init__`: raises `ValueError` iff spacing is present and its
length is not `len(digits) - 1` (Python integer arithmetic, so an empty digit
list with a present spacing always fails). -/
def mkPattern (digits : List Nat) (spacing : Option (List Nat)) : Option Pattern :=
  match spacing with
  | none => some ⟨digits, none⟩
  | some s =>
    if (s.length : Int) ≠ (digits.length : Int) - 1 then none
    else some ⟨digits, some s⟩

/-- `Pattern.is_contiguous`: no spacing, or all spacing values zero. -/
def Pattern.isContiguous (p : Pattern) : Bool :=
  match p.spacing with
  | none => true
  | some s => s.all (fun x => x = 0)

/-- The digit-by-digit comparison of the contiguous branch of
`match_at_position` (stream bounds are checked before this runs). -/
def contiguousMatch : List Nat → List Nat → Bool
  | [], _ => true
  | _ :: _, [] => false
  | d :: ds, s :: ss => d = s && contiguousMatch ds ss

/-- The walk of the spaced branch of `match_at_position`: check the digit at
the cursor, then advance by `1 + spacing[i]` unless at the last digit; return
the position one past the last matched digit.  (Indexing `spacing` past its
end would raise in Python; that cannot happen for patterns accepted by
`Pattern.__init__`, and the default 0 here is never exercised in theorems,
which assume a well-formed spacing list.) -/
def spacedWalk (stream : List Nat) : List Nat → List Nat → Nat → Option Nat
  | [], _, pos => some (pos + 1)
  | d :: ds, sp, pos =>
    if stream.length ≤ pos then none
    else if stream.getD pos 0 ≠ d then none
    else
      match ds with
      | [] => some (pos + 1)
      | _ :: _ => spacedWalk stream ds sp.tail (pos + 1 + sp.headD 0)

/-- `Pattern.match_at_position(stream, start_pos)`: `some endPos` for a match
(`end_position`), `none` for `(False, -1)`. -/
def Pattern.matchAt (p : Pattern) (stream : List Nat) (startPos : Nat) : Option Nat :=
  if stream.length ≤ startPos then none
  else if p.isContiguous then
    if stream.length < startPos + p.digits.length then none
    else if contiguousMatch p.digits (stream.drop startPos) then
      some (startPos + p.digits.length)
    else none
  else
    match p.digits with
    | [] => some (startPos + 1)
    | d :: ds => spacedWalk stream (d :: ds) (p.spacing.getD []) startPos

/-- The cumulative offsets of the specification's matching rule:
`c 0 = 0`, `c (i+1) = c i + 1 + spacing[i]` (out-of-range spacing entries
default to 0, so the empty list gives `c i = i`, the contiguous rule). -/
def cumOffset (spacing : List Nat) : Nat → Nat
  | 0 => 0
  | i + 1 => cumOffset spacing i + 1 + spacing.getD i 0

/-- `PatternMatcher._extract_follow_digits(stream, end_pos)`. -/
def extractFollowDigits (followDigits : Nat) (stream : List Nat) (endPos : Nat) : List Nat :=
  let available := min followDigits (stream.length - endPos)
  if available = 0 then []
  else (stream.drop endPos).take available

/-- Python `range(a, b)` over possibly negative bounds. -/
def pyRange (a : Nat) (b : Int) : List Nat := List.range' a (b - a).toNat

/-- The shared scanning loop of `_find_pattern_sequential` and
`_search_chunk`: scan candidate positions in order, record
`(position, follow_sequence)` for matches, and break once `max_positions`
results are collected. -/
def searchPositions (p : Pattern) (followDigits : Nat) (stream : List Nat)
    (maxPositions : Nat) : List Nat → List (Nat × List Nat) → List (Nat × List Nat)
  | [], acc => acc
  | pos :: rest, acc =>
    match p.matchAt stream pos with
    | none => searchPositions p followDigits stream maxPositions rest acc
    | some endPos =>
      let acc := acc ++ [(pos, extractFollowDigits followDigits stream endPos)]
      if maxPositions ≤ acc.length then acc
      else searchPositions p followDigits stream maxPositions rest acc

/-- Specification-level view of a scan: all matches over a list of candidate
positions, with their follow sequences, in scan order and without any
`max_positions` cut-off. -/
def allMatches (p : Pattern) (followDigits : Nat) (stream : List Nat)
    (positions : List Nat) : List (Nat × List Nat) :=
  positions.filterMap (fun q =>
    (p.matchAt stream q).map (fun e => (q, extractFollowDigits followDigits stream e)))

/-- `_find_pattern_sequential(pattern, stream, max_positions, start_from)`:
scan `range(start_from, len(stream) - pattern.length + 1)`. -/
def findPatternSequential (p : Pattern) (followDigits : Nat) (stream : List Nat)
    (maxPositions startFrom : Nat) : List (Nat × List Nat) :=
  searchPositions p followDigits stream maxPositions
    (pyRange startFrom ((stream.length : Int) - p.digits.length + 1)) []

/-- `_search_chunk(pattern, stream, start, end, max_positions)`. -/
def searchChunk (p : Pattern) (followDigits : Nat) (stream : List Nat)
    (maxPositions : Nat) (c : Nat × Nat) : List (Nat × List Nat) :=
  searchPositions p followDigits stream maxPositions (pyRange c.1 (c.2 : Int)) []

/-- The future-collection loop of `_find_pattern_parallel`: futures are
iterated in submission order (left to right), each chunk's results are
appended, and collection stops once `max_positions` results have been
gathered. -/
def collectChunks (p : Pattern) (followDigits : Nat) (stream : List Nat)
    (maxPositions : Nat) : List (Nat × Nat) → List (Nat × List Nat) → List (Nat × List Nat)
  | [], acc => acc
  | c :: rest, acc =>
    let acc := acc ++ searchChunk p followDigits stream maxPositions c
    if maxPositions ≤ acc.length then acc
    else collectChunks p followDigits stream maxPositions rest acc

/-- Comparison used for `results.sort(key=lambda x: x[0])` (a stable sort by
position, modelled by the stable `List.mergeSort`). -/
def posLe (a b : Nat × List Nat) : Bool := a.1 ≤ b.1

/-- `_find_pattern_parallel(pattern, stream, max_positions, start_from)` with
the worker count already resolved (`threads or max(1, cpu_count() - 1)`). -/
def findPatternParallel (p : Pattern) (followDigits : Nat) (stream : List Nat)
    (maxPositions startFrom threads : Nat) : List (Nat × List Nat) :=
  let streamLength : Int := (stream.length : Int) - p.digits.length + 1
  let chunkSize := max 1000 (streamLength.toNat / threads)
  let chunks := chunkList startFrom streamLength.toNat chunkSize
  let results := collectChunks p followDigits stream maxPositions chunks []
  (results.mergeSort posLe).take maxPositions

/-- `PatternMatcher.find_pattern(pattern, stream, max_positions, start_from)`:
parallel when the stream is long and `threads not in (0, 1)`, sequential
otherwise, then a final stable sort by position.  `threads` is the
constructor argument (`None` by default) and `cpuCount` the machine's
`multiprocessing.cpu_count()`. -/
def findPattern (p : Pattern) (followDigits : Nat) (stream : List Nat)
    (maxPositions startFrom : Nat) (threads : Option Nat) (cpuCount : Nat) :
    List (Nat × List Nat) :=
  let results :=
    if 10000 < stream.length && !(threads == some 0) && !(threads == some 1) then
      let resolved :=
        match threads with
        | none => max 1 (cpuCount - 1)
        | some 0 => max 1 (cpuCount - 1)
        | some t => t
      findPatternParallel p followDigits stream maxPositions startFrom resolved
    else
      findPatternSequential p followDigits stream maxPositions startFrom
  results.mergeSort posLe

/-! ## SHA-256 (`hashlib.sha256`, used by `hash_follow_sequences`)

A direct FIPS 180-4 implementation over byte lists, with 32-bit words as
`Nat % 2^32`. -/

/-- The 64 round constants of FIPS 180-4 §4.2.2 (written in decimal). -/
def sha256K : List Nat :=
  [1116352408, 1899447441, 3049323471, 3921009573, 961987163, 1508970993,
   2453635748, 2870763221, 3624381080, 310598401, 607225278, 1426881987,
   1925078388, 2162078206, 2614888103, 3248222580, 3835390401, 4022224774,
   264347078, 604807628, 770255983, 1249150122, 1555081692, 1996064986,
   2554220882, 2821834349, 2952996808, 3210313671, 3336571891, 3584528711,
   113926993, 338241895, 666307205, 773529912, 1294757372, 1396182291,
   1695183700, 1986661051, 2177026350, 2456956037, 2730485921, 2820302411,
   3259730800, 3345764771, 3516065817, 3600352804, 4094571909, 275423344,
   430227734, 506948616, 659060556, 883997877, 958139571, 1322822218,
   1537002063, 1747873779, 1955562222, 2024104815, 2227730452, 2361852424,
   2428436474, 2756734187, 3204031479, 3329325298]

/-- The initial hash state of FIPS 180-4 §5.3.3 (written in decimal). -/
def sha256H0 : List Nat :=
  [1779033703, 3144134277, 1013904242, 2773480762,
   1359893119, 2600822924, 528734635, 1541459225]

def rotr32 (n x : Nat) : Nat := ((x >>> n) ||| (x <<< (32 - n))) % 2 ^ 32

def bsig0 (x : Nat) : Nat := rotr32 2 x ^^^ rotr32 13 x ^^^ rotr32 22 x

def bsig1 (x : Nat) : Nat := rotr32 6 x ^^^ rotr32 11 x ^^^ rotr32 25 x

def ssig0 (x : Nat) : Nat := rotr32 7 x ^^^ rotr32 18 x ^^^ (x >>> 3)

def ssig1 (x : Nat) : Nat := rotr32 17 x ^^^ rotr32 19 x ^^^ (x >>> 10)

/-- Big-endian byte decomposition of a 64-bit value. -/
def bytes8BE (n : Nat) : List Nat :=
  [n >>> 56 % 256, n >>> 48 % 256, n >>> 40 % 256, n >>> 32 % 256,
   n >>> 24 % 256, n >>> 16 % 256, n >>> 8 % 256, n % 256]

def bytes4BE (n : Nat) : List Nat :=
  [n >>> 24 % 256, n >>> 16 % 256, n >>> 8 % 256, n % 256]

/-- Pad to a multiple of 64 bytes: `0x80`, zeros, then the bit length. -/
def sha256Pad (msg : List Nat) : List Nat :=
  let k := (120 - (msg.length + 1) % 64) % 64
  msg ++ 128 :: List.replicate k 0 ++ bytes8BE (8 * msg.length)

/-- Group bytes into big-endian 32-bit words. -/
def bytesToWords : List Nat → List Nat
  | b0 :: b1 :: b2 :: b3 :: rest =>
    (((b0 * 256 + b1) * 256 + b2) * 256 + b3) :: bytesToWords rest
  | _ => []

/-- Extend the 16 message words to the 64-entry schedule. -/
def sha256Schedule (w16 : List Nat) : List Nat :=
  (List.range 48).foldl (fun w _ =>
    let t := w.length
    w ++ [(ssig1 (w.getD (t - 2) 0) + w.getD (t - 7) 0 +
           ssig0 (w.getD (t - 15) 0) + w.getD (t - 16) 0) % 2 ^ 32]) w16

/-- One compression round on the eight working variables. -/
def sha256Round (st : List Nat) (kw : Nat × Nat) : List Nat :=
  match st with
  | [a, b, c, d, e, f, g, h] =>
    let ch := (e &&& f) ^^^ ((4294967295 ^^^ e) &&& g)
    let maj := (a &&& b) ^^^ (a &&& c) ^^^ (b &&& c)
    let t1 := (h + bsig1 e + ch + kw.1 + kw.2) % 2 ^ 32
    let t2 := (bsig0 a + maj) % 2 ^ 32
    [(t1 + t2) % 2 ^ 32, a, b, c, (d + t1) % 2 ^ 32, e, f, g]
  | other => other

def sha256Compress (hs : List Nat) (block : List Nat) : List Nat :=
  let w := sha256Schedule (bytesToWords block)
  let st := (sha256K.zip w).foldl sha256Round hs
  List.zipWith (fun x y => (x + y) % 2 ^ 32) hs st

/-- Split into 64-byte blocks (the fuel bounds the recursion; the padded
message length is always a positive multiple of 64). -/
def splitBlocks : Nat → List Nat → List (List Nat)
  | 0, _ => []
  | _, [] => []
  | fuel + 1, l => l.take 64 :: splitBlocks fuel (l.drop 64)

/-- SHA-256 digest (32 bytes) of a byte list. -/
def sha256 (msg : List Nat) : List Nat :=
  let padded := sha256Pad msg
  ((splitBlocks padded.length padded).foldl sha256Compress sha256H0).map bytes4BE
    |>.flatten

def hexDigitChar (n : Nat) : Char :=
  Char.ofNat (if n < 10 then 48 + n else 87 + n)

def byteToHex (b : Nat) : List Char := [hexDigitChar (b / 16 % 16), hexDigitChar (b % 16)]

/-- Lowercase hex rendering (`hexdigest()`). -/
def bytesToHexString (bs : List Nat) : String := String.mk ((bs.map byteToHex).flatten)

/-- The bytes of a Lean string under UTF-8; all strings hashed by the
embedded code are ASCII, where UTF-8 is the identity on code points. -/
def strBytes (s : String) : List Nat := s.data.map Char.toNat

def pipeSep : String := "|"

def emptyStr : String := ""

def hexAlphabet : List Char := [Char.ofNat 48, Char.ofNat 49, Char.ofNat 50, Char.ofNat 51,
  Char.ofNat 52, Char.ofNat 53, Char.ofNat 54, Char.ofNat 55, Char.ofNat 56, Char.ofNat 57,
  Char.ofNat 97, Char.ofNat 98, Char.ofNat 99, Char.ofNat 100, Char.ofNat 101, Char.ofNat 102]

/-- Decimal rendering of one follow sequence:
`"".join(str(d) for d in seq)`. -/
def renderSeq (seq : List Nat) : String := String.join (seq.map (fun d => toString d))

/-- `PatternMatcher.hash_follow_sequences(follow_sequences)`:
`seq_str = ""; for seq: seq_str += render(seq) + "|"`, then
`hashlib.sha256(seq_str.encode()).hexdigest()`. -/
def hashFollowSequences (seqs : List (List Nat)) : String :=
  bytesToHexString (sha256 (strBytes
    (seqs.foldl (fun acc seq => acc ++ renderSeq seq ++ pipeSep) emptyStr)))

/-! ## Keys (`src/crypto/keys.py`)

The digit files, the machine's CPU count and the loop fuels are ambient
environment for the key pipeline; they are bundled in `Env`. -/

structure Env where
  fileA : List Nat
  fileB : List Nat
  cpuCount : Nat
  mtFuel : Nat
  digitFuel : Nat

/-- `PrivateKey` value state. -/
structure PrivateKey where
  piSeed : Nat
  eSeed : Nat
  pattern : Pattern
  numOffsets : Nat
  modulus : Nat
  followDigits : Nat

/-- `PublicKey` value state. -/
structure PublicKey where
  verificationToken : String
  maxPositions : Nat
  followDigits : Nat
deriving DecidableEq

/-- `get_synthetic_stream(pi_seed, e_seed, length, num_offsets, modulus)`:
derive both offset lists from the seeds, then run the singleton
`StreamGenerator.generate` (which raises when both lists are empty).  The
worker count is `None`, resolved to `max(1, cpu_count() - 1)`. -/
def getSyntheticStream (env : Env) (piSeed eSeed length numOffsets modulus : Nat) :
    Option (List Nat) :=
  match generateOffsetsFromSeed piSeed numOffsets env.mtFuel with
  | none => none
  | some piOffs =>
    match generateOffsetsFromSeed eSeed numOffsets env.mtFuel with
    | none => none
    | some eOffs =>
      match StreamGenerator.generate
        ⟨piOffs, eOffs, modulus, max 1 (env.cpuCount - 1)⟩ length env.fileA env.fileB
        env.digitFuel with
      | .ok s => some s
      | .error _ => none

/-- `PrivateKey.generate_stream()` with its default `length = 10000`. -/
def PrivateKey.generateStream (k : PrivateKey) (env : Env) : Option (List Nat) :=
  getSyntheticStream env k.piSeed k.eSeed 10000 k.numOffsets k.modulus

/-- `PrivateKey.find_pattern_matches(max_positions)`: generate the stream and
search it with a `PatternMatcher(follow_digits=self.follow_digits)` (so
`threads = None`).  The `_matches` cache only replays results this function
computed for the same key, so the uncached recomputation is modelled. -/
def PrivateKey.findPatternMatches (k : PrivateKey) (maxPositions : Nat) (env : Env) :
    Option (List (Nat × List Nat)) :=
  match k.generateStream env with
  | none => none
  | some stream =>
    some (findPattern k.pattern k.followDigits stream maxPositions 0 none env.cpuCount)

/-- `PrivateKey.get_follow_sequences(max_positions)`. -/
def PrivateKey.getFollowSequences (k : PrivateKey) (maxPositions : Nat) (env : Env) :
    Option (List (List Nat)) :=
  match k.findPatternMatches maxPositions env with
  | none => none
  | some ms => some (ms.map (fun m => m.2))

/-- `PrivateKey.get_public_key(max_positions)`: hash the follow sequences
into the verification token. -/
def PrivateKey.getPublicKey (k : PrivateKey) (maxPositions : Nat) (env : Env) :
    Option PublicKey :=
  match k.getFollowSequences maxPositions env with
  | none => none
  | some seqs => some ⟨hashFollowSequences seqs, maxPositions, k.followDigits⟩

/-- `verify_key_pair(private_key, public_key)`: recompute the token with
`public_key.max_positions` and compare it to the stored token. -/
def verifyKeyPair (k : PrivateKey) (pub : PublicKey) (env : Env) : Option Bool :=
  match k.getFollowSequences pub.maxPositions env with
  | none => none
  | some seqs => some (hashFollowSequences seqs == pub.verificationToken)

/-! ## Concrete data used by counterexamples and witnesses

`PI_START` is the hard-coded known-correct prefix of π in
`src/transcendental/digits.py`; it is exactly the file content that
`DigitStore.download_digits` writes when no bundled digit file exists, so it
is a digit-source file the repository itself produces (one integer digit, a
radix point, and 100 fractional digits, ending in a digit byte). -/

def piStartStr : String := "3.1415926535897932384626433832795028841971693993751058209749445923078164062862089986280348253421170679"

def piStartBytes : List Nat := strBytes piStartStr

def tinyPiStr : String := "3.14"

/-- A minimal well-formed digit file (used where only smallness matters). -/
def tinyPiBytes : List Nat := strBytes tinyPiStr

def sevenPiStr : String := "3.14159"

def sevenPiBytes : List Nat := strBytes sevenPiStr

/-- A 2500-digit stream with pattern occurrences at positions 500 and 1500,
which fall into the two distinct chunks `[0, 1250)` and `[1250, 2500)` used
by the parallel search with two workers. -/
def c2Stream : List Nat :=
  (List.range 2500).map (fun i => if i = 500 || i = 1500 then 7 else 0)

/-! ## Characterisation of the digit store in the no-wrap regime

As long as a request stays within the digits physically stored after the
radix point, `getDigits` returns the corresponding slice of `fracDigits`.
The lemmas below locate the next digit byte at or after a cursor and step
the skip/read loops through it. -/

theorem digitVal_lt_ten {b : Nat} (h : isDigitByte b = true) : digitVal b < 10 := by
  simp only [isDigitByte, Bool.and_eq_true, decide_eq_true_eq] at h
  simp only [digitVal]
  omega

theorem exists_least_digit (file : List Nat) :
    ∀ pos, (file.drop pos).filter isDigitByte ≠ [] →
    ∃ j, pos ≤ j ∧ j < file.length ∧ isDigitByte (file.getD j 0) = true ∧
      (∀ k, pos ≤ k → k < j → isDigitByte (file.getD k 0) = false) ∧
      (file.drop pos).filter isDigitByte =
        file.getD j 0 :: (file.drop (j + 1)).filter isDigitByte := by
  have main : ∀ n pos, file.length - pos = n → (file.drop pos).filter isDigitByte ≠ [] →
      ∃ j, pos ≤ j ∧ j < file.length ∧ isDigitByte (file.getD j 0) = true ∧
        (∀ k, pos ≤ k → k < j → isDigitByte (file.getD k 0) = false) ∧
        (file.drop pos).filter isDigitByte =
          file.getD j 0 :: (file.drop (j + 1)).filter isDigitByte := by
    intro n
    induction n with
    | zero =>
      intro pos hn hne
      exfalso
      apply hne
      rw [List.drop_eq_nil_of_le (by omega)]
      rfl
    | succ n ih =>
      intro pos hn hne
      have hp : pos < file.length := by omega
      have hdrop : file.drop pos = file.getD pos 0 :: file.drop (pos + 1) := by
        rw [List.getD_eq_getElem file 0 hp]
        exact List.drop_eq_getElem_cons hp
      by_cases hd : isDigitByte (file.getD pos 0) = true
      · refine ⟨pos, le_refl _, hp, hd, fun k hk1 hk2 => absurd (lt_of_le_of_lt hk1 hk2) (lt_irrefl _), ?_⟩
        rw [hdrop, List.filter_cons_of_pos hd]
      · have hne' : (file.drop (pos + 1)).filter isDigitByte ≠ [] := by
          rw [hdrop, List.filter_cons_of_neg (by simpa using hd)] at hne
          exact hne
        obtain ⟨j, h1, h2, h3, h4, h5⟩ := ih (pos + 1) (by omega) hne'
        refine ⟨j, by omega, h2, h3, ?_, ?_⟩
        · intro k hk1 hk2
          rcases Nat.eq_or_lt_of_le hk1 with hk | hk
          · rw [hk] at hd
            exact Bool.eq_false_iff.mpr hd
          · exact h4 k hk hk2
        · rw [hdrop, List.filter_cons_of_neg (by simpa using hd), h5]
  intro pos
  exact main (file.length - pos) pos rfl

theorem skipOne_spec (file : List Nat) :
    ∀ fuel pos j, pos ≤ j → j < file.length → isDigitByte (file.getD j 0) = true →
      (∀ k, pos ≤ k → k < j → isDigitByte (file.getD k 0) = false) →
      j + 1 ≤ pos + fuel →
      skipOne file fuel pos = some (j + 1) := by
  intro fuel
  induction fuel with
  | zero => intro pos j h1 _ _ _ h5; omega
  | succ fuel ih =>
    intro pos j h1 h2 h3 h4 h5
    have hp : pos < file.length := lt_of_le_of_lt h1 h2
    rcases Nat.eq_or_lt_of_le h1 with he | hlt
    · subst he
      simp only [skipOne, if_pos hp, h3, eq_self_iff_true, if_true]
    · have hnd : isDigitByte (file.getD pos 0) = false := h4 pos (le_refl _) hlt
      have hnw : ¬ file.length ≤ pos + 1 := by omega
      simp only [skipOne, if_pos hp, hnd, Bool.false_eq_true, if_false, if_neg hnw]
      exact ih (pos + 1) j hlt h2 h3 (fun k hk1 hk2 => h4 k (by omega) hk2) (by omega)

theorem readOne_spec (file : List Nat) :
    ∀ fuel pos j, pos ≤ j → j < file.length → isDigitByte (file.getD j 0) = true →
      (∀ k, pos ≤ k → k < j → isDigitByte (file.getD k 0) = false) →
      j + 1 ≤ pos + fuel →
      readOne file fuel pos = some (digitVal (file.getD j 0), j + 1) := by
  intro fuel
  induction fuel with
  | zero => intro pos j h1 _ _ _ h5; omega
  | succ fuel ih =>
    intro pos j h1 h2 h3 h4 h5
    have hp : pos < file.length := lt_of_le_of_lt h1 h2
    have hnl : ¬ file.length ≤ pos := by omega
    rcases Nat.eq_or_lt_of_le h1 with he | hlt
    · subst he
      simp only [readOne, if_neg hnl, if_pos hp, h3, eq_self_iff_true, if_true]
    · have hnd : isDigitByte (file.getD pos 0) = false := h4 pos (le_refl _) hlt
      simp only [readOne, if_neg hnl, if_pos hp, hnd, Bool.false_eq_true, if_false]
      exact ih (pos + 1) j hlt h2 h3 (fun k hk1 hk2 => h4 k (by omega) hk2) (by omega)

theorem skipN_spec (file : List Nat) (fuel : Nat) (hfuel : file.length + 1 ≤ fuel) :
    ∀ s pos, pos ≤ file.length →
      s ≤ ((file.drop pos).filter isDigitByte).length →
      ∃ p, skipN file fuel s pos = some p ∧ p ≤ file.length ∧
        (file.drop p).filter isDigitByte = ((file.drop pos).filter isDigitByte).drop s := by
  intro s
  induction s with
  | zero => intro pos hpos _; exact ⟨pos, rfl, hpos, rfl⟩
  | succ s ih =>
    intro pos hpos hcount
    have hne : (file.drop pos).filter isDigitByte ≠ [] := by
      intro h
      rw [h] at hcount
      simp at hcount
    obtain ⟨j, h1, h2, h3, h4, h5⟩ := exists_least_digit file pos hne
    have hskip : skipOne file fuel pos = some (j + 1) :=
      skipOne_spec file fuel pos j h1 h2 h3 (fun k hk1 hk2 => h4 k hk1 hk2) (by omega)
    have hcount' : s ≤ ((file.drop (j + 1)).filter isDigitByte).length := by
      rw [h5] at hcount
      simpa using Nat.le_of_succ_le_succ hcount
    obtain ⟨p, hp1, hp2, hp3⟩ := ih (j + 1) (by omega) hcount'
    refine ⟨p, ?_, hp2, ?_⟩
    · simp only [skipN, hskip]
      exact hp1
    · rw [hp3, h5]
      rfl

theorem readN_spec (file : List Nat) (fuel : Nat) (hfuel : file.length + 1 ≤ fuel) :
    ∀ L pos, pos ≤ file.length →
      L ≤ ((file.drop pos).filter isDigitByte).length →
      ∃ p, readN file fuel L pos =
        some (((((file.drop pos).filter isDigitByte).map digitVal).take L), p) := by
  intro L
  induction L with
  | zero => intro pos _ _; exact ⟨pos, rfl⟩
  | succ L ih =>
    intro pos hpos hcount
    have hne : (file.drop pos).filter isDigitByte ≠ [] := by
      intro h
      rw [h] at hcount
      simp at hcount
    obtain ⟨j, h1, h2, h3, h4, h5⟩ := exists_least_digit file pos hne
    have hread : readOne file fuel pos = some (digitVal (file.getD j 0), j + 1) :=
      readOne_spec file fuel pos j h1 h2 h3 (fun k hk1 hk2 => h4 k hk1 hk2) (by omega)
    have hcount' : L ≤ ((file.drop (j + 1)).filter isDigitByte).length := by
      rw [h5] at hcount
      simpa using Nat.le_of_succ_le_succ hcount
    obtain ⟨p, hp1⟩ := ih (j + 1) (by omega) hcount'
    refine ⟨p, ?_⟩
    simp only [readN, hread, hp1, h5]
    rfl

/-- In the no-wrap regime the digit store returns the expected slice of the
stored fractional digits. -/
theorem getDigits_spec (file : List Nat) (s L fuel : Nat) (hL : 1 ≤ L)
    (hsL : s + L ≤ (fracDigits file).length) (hfuel : file.length + 1 ≤ fuel) :
    getDigits file s L fuel = some (((fracDigits file).drop s).take L) := by
  have hcount : s + L ≤ ((file.drop (dotPos file + 1)).filter isDigitByte).length := by
    simpa [fracDigits] using hsL
  have hne : (file.drop (dotPos file + 1)).filter isDigitByte ≠ [] := by
    intro h
    rw [h] at hcount
    simp at hcount
    omega
  have hpos0 : dotPos file + 1 ≤ file.length := by
    by_contra h
    apply hne
    rw [List.drop_eq_nil_of_le (by omega)]
    rfl
  obtain ⟨p, hp1, hp2, hp3⟩ := skipN_spec file fuel hfuel s (dotPos file + 1) hpos0 (by omega)
  have hcountp : L ≤ ((file.drop p).filter isDigitByte).length := by
    rw [hp3, List.length_drop]
    omega
  obtain ⟨q, hq⟩ := readN_spec file fuel hfuel L p hp2 hcountp
  simp only [getDigits, if_neg (show ¬ L = 0 by omega), hp1, hq, hp3]
  simp [fracDigits, List.map_drop]

/-! ## Claim C3 — digit continuity -/

/-- C3 (counterexample): using the repository's own fallback π file
(`PI_START`, 100 stored fractional digits), the claimed continuity equation
`digits_at(C, s, L1) ++ digits_at(C, s+L1, L2) == digits_at(C, s, L1+L2)`
fails at `s = 100, L1 = 1, L2 = 1`: once the skip loop has consumed the
file's final digit the cursor stalls at the end of the file, so every
further start offset collapses to the same read instead of wrapping
cyclically modulo the stored length. -/
theorem claim_C3_counterexample :
    getDigits piStartBytes 100 1 300 = some [3] ∧
    getDigits piStartBytes 101 1 300 = some [3] ∧
    getDigits piStartBytes 100 2 300 = some [3, 1] ∧
    ¬ (∃ d1 d2 d12, getDigits piStartBytes 100 1 300 = some d1 ∧
        getDigits piStartBytes 101 1 300 = some d2 ∧
        getDigits piStartBytes 100 2 300 = some d12 ∧
        d1 ++ d2 = d12) := by
  refine ⟨by decide, by decide, by decide, ?_⟩
  rintro ⟨d1, d2, d12, h1, h2, h3, h4⟩
  have e1 : d1 = [3] := by
    have := h1.symm.trans (by decide : getDigits piStartBytes 100 1 300 = some [3])
    exact Option.some.inj this.symm |>.symm
  have e2 : d2 = [3] := by
    have := h2.symm.trans (by decide : getDigits piStartBytes 101 1 300 = some [3])
    exact Option.some.inj this.symm |>.symm
  have e3 : d12 = [3, 1] := by
    have := h3.symm.trans (by decide : getDigits piStartBytes 100 2 300 = some [3, 1])
    exact Option.some.inj this.symm |>.symm
  rw [e1, e2, e3] at h4
  simp at h4

/-- C3 (amended): digit continuity holds for every digit file and all
`s, L1, L2` with `L1, L2 ≥ 1` as long as the whole request stays within the
digits physically stored after the radix point (`s + L1 + L2` at most the
stored fractional-digit count); reads that would run past the stored digits
stall rather than wrap modulo the stored length, as the counterexample
shows. -/
theorem claim_C3_amended (file : List Nat) (s L1 L2 fuel : Nat)
    (hL1 : 1 ≤ L1) (hL2 : 1 ≤ L2)
    (hbound : s + L1 + L2 ≤ (fracDigits file).length)
    (hfuel : file.length + 1 ≤ fuel) :
    ∃ d1 d2, getDigits file s L1 fuel = some d1 ∧
      getDigits file (s + L1) L2 fuel = some d2 ∧
      getDigits file s (L1 + L2) fuel = some (d1 ++ d2) := by
  refine ⟨_, _, getDigits_spec file s L1 fuel hL1 (by omega) hfuel,
    getDigits_spec file (s + L1) L2 fuel hL2 (by omega) hfuel, ?_⟩
  rw [getDigits_spec file s (L1 + L2) fuel (by omega) (by omega) hfuel]
  congr 1
  rw [List.take_add ((fracDigits file).drop s) L1 L2, List.drop_drop]

/-- C3 (witness): the amended continuity theorem applied to the concrete
file `"3.14159"` at `s = 1, L1 = 2, L2 = 2`. -/
theorem claim_C3_witness :
    ∃ d1 d2, getDigits sevenPiBytes 1 2 20 = some d1 ∧
      getDigits sevenPiBytes 3 2 20 = some d2 ∧
      getDigits sevenPiBytes 1 4 20 = some (d1 ++ d2) :=
  claim_C3_amended sevenPiBytes 1 2 2 20 (by decide) (by decide) (by decide) (by decide)

/-! ## Claim C7 — empty offset lists -/

/-- C7 (counterexample): the synthesis function itself
(`generate_synthetic_stream`) does not fail when both offset lists are
empty — with `length = 4, modulus = 10` it returns the all-zero stream
instead of raising `NoOffsets`. -/
theorem claim_C7_counterexample :
    generateSyntheticStream tinyPiBytes tinyPiBytes [] [] 4 10 1 50 = some [0, 0, 0, 0] := by
  decide

/-- C7 (amended): the empty-offsets check lives one layer up, in
`StreamGenerator.generate`, which raises `ValueError` ("No offsets set")
whenever both of its offset lists are empty, for every length, modulus,
thread count, digit file and fuel; the lower-level
`generate_synthetic_stream` returns an all-zero stream instead. -/
theorem claim_C7_amended (g : StreamGenerator) (length : Nat)
    (fileA fileB : List Nat) (fuel : Nat)
    (h1 : g.piOffsets = []) (h2 : g.eOffsets = []) :
    g.generate length fileA fileB fuel = .error .noOffsets := by
  simp [StreamGenerator.generate, h1, h2]

/-- C7 (witness): the amended theorem at a concrete generator. -/
theorem claim_C7_witness :
    StreamGenerator.generate ⟨[], [], 10, 1⟩ 4 tinyPiBytes tinyPiBytes 50 =
      .error .noOffsets :=
  claim_C7_amended ⟨[], [], 10, 1⟩ 4 tinyPiBytes tinyPiBytes 50 rfl rfl

/-! ## Claim C8 — pattern construction validation -/

/-- C8 (counterexample): `Pattern([15])` (with the default `modulus = 10`
everywhere else in the system) constructs successfully even though the
digit 15 lies outside `[0, 10)`: digit ranges are never validated, so the
claimed `InvalidPattern` failure does not occur. -/
theorem claim_C8_counterexample :
    mkPattern [15] none = some ⟨[15], none⟩ := by
  decide

/-- C8 (amended): `Pattern.__init__` fails exactly when a spacing list is
present whose length differs from `len(digits) - 1` (Python integer
arithmetic); digit values are never checked against the modulus, so a
pattern with out-of-range digits is accepted as constructed. -/
theorem claim_C8_amended (digits : List Nat) (spacing : List Nat) :
    (mkPattern digits (some spacing) = none ↔
      (spacing.length : Int) ≠ (digits.length : Int) - 1) ∧
    mkPattern digits none = some ⟨digits, none⟩ := by
  constructor
  · simp only [mkPattern]
    by_cases h : (spacing.length : Int) ≠ (digits.length : Int) - 1
    · simp [h]
    · simp [h]
  · rfl

/-! ## Claim C1 — offset derivation -/

theorem randBounded_le (rng mask : Nat) :
    ∀ fuel s v s', randBounded rng mask fuel s = some (v, s') → v ≤ rng := by
  intro fuel
  induction fuel with
  | zero => intro s v s' h; exact absurd h (by simp [randBounded])
  | succ fuel ih =>
    intro s v s' h
    rw [randBounded] at h
    by_cases hle : (mtNext s).1 &&& mask ≤ rng
    · simp only [if_pos hle] at h
      obtain ⟨hv, _⟩ := Prod.mk.injEq .. ▸ Option.some.inj h
      omega
    · simp only [if_neg hle] at h
      exact ih (mtNext s).2 v s' h

theorem randBoundedMany_spec (rng mask fuel : Nat) :
    ∀ count s vs s', randBoundedMany rng mask fuel count s = some (vs, s') →
      vs.length = count ∧ ∀ v ∈ vs, v ≤ rng := by
  intro count
  induction count with
  | zero =>
    intro s vs s' h
    obtain ⟨h1, _⟩ := Prod.mk.injEq .. ▸ Option.some.inj h
    subst h1
    exact ⟨rfl, by simp⟩
  | succ count ih =>
    intro s vs s' h
    cases hb : randBounded rng mask fuel s with
    | none =>
      simp only [randBoundedMany, hb] at h
      exact Option.noConfusion h
    | some p =>
      obtain ⟨v1, st1⟩ := p
      cases hm : randBoundedMany rng mask fuel count st1 with
      | none =>
        simp only [randBoundedMany, hb, hm] at h
        exact Option.noConfusion h
      | some q =>
        obtain ⟨vs1, st2⟩ := q
        simp only [randBoundedMany, hb, hm, Option.some.injEq, Prod.mk.injEq] at h
        obtain ⟨h1, _⟩ := h
        subst h1
        obtain ⟨hlen, hall⟩ := ih st1 vs1 st2 hm
        refine ⟨by simp [hlen], ?_⟩
        intro v hv
        rcases List.mem_cons.mp hv with hv | hv
        · subst hv
          exact randBounded_le rng mask fuel s _ st1 hb
        · exact hall v hv

/-- C1: offset derivation (`_generate_offsets_from_seed`).  First part: a
seed of `2^32` — a perfectly good 64-bit integer, and `PrivateKey.generate`
draws full 64-bit seeds — makes `np.random.RandomState(seed)` raise
`ValueError`, so no offsets are returned at all, contradicting the claim.
Second part: for the seeds the generator does accept (below `2^32`), any
returned offset list indeed has exactly `count` entries, each in
`[0, 10^9)`; determinism holds definitionally, the embedding being a pure
function of `(seed, count)`. -/
theorem claim_C1 :
    (∀ count fuel, generateOffsetsFromSeed 4294967296 count fuel = none) ∧
    (∀ seed count fuel xs, seed < 2 ^ 32 →
      generateOffsetsFromSeed seed count fuel = some xs →
      xs.length = count ∧ ∀ x ∈ xs, x < 1000000000) := by
  constructor
  · intro count fuel
    simp [generateOffsetsFromSeed]
  · intro seed count fuel xs hseed h
    cases hm : randBoundedMany (1000000000 - 1) (genMask (1000000000 - 1)) fuel count
        (mtInit seed) with
    | none =>
      simp only [generateOffsetsFromSeed, if_neg (show ¬ 2 ^ 32 ≤ seed by omega), hm] at h
      exact Option.noConfusion h
    | some q =>
      obtain ⟨vs1, st1⟩ := q
      simp only [generateOffsetsFromSeed, if_neg (show ¬ 2 ^ 32 ≤ seed by omega), hm,
        Option.some.injEq] at h
      obtain ⟨hlen, hall⟩ := randBoundedMany_spec _ _ fuel count (mtInit seed) vs1 st1 hm
      subst h
      exact ⟨hlen, fun x hx => by have := hall x hx; omega⟩

/-- C1 (witness): the failing seed refused at `count = 1`, and the positive
part evaluated at seed 42: exactly one offset, below `10^9`. -/
theorem claim_C1_witness :
    generateOffsetsFromSeed 4294967296 1 50 = none ∧
    (42 < 2 ^ 32 ∧ generateOffsetsFromSeed 42 1 50 = some [534895718] ∧
      ([534895718] : List Nat).length = 1 ∧ ∀ x ∈ ([534895718] : List Nat), x < 1000000000) :=
  ⟨claim_C1.1 1 50,
    by decide,
    by decide,
    claim_C1.2 42 1 50 [534895718] (by decide) (by decide)⟩

/-! ## Claim C9 — hashing of follow sequences -/

theorem emptyStr_append (s : String) : emptyStr ++ s = s := String.empty_append s

theorem append_emptyStr (s : String) : s ++ emptyStr = s := String.append_empty s

theorem string_foldl_append (l : List String) :
    ∀ a : String, l.foldl (fun r s => r ++ s) a =
      a ++ l.foldl (fun r s => r ++ s) emptyStr := by
  induction l with
  | nil => intro a; exact (String.append_empty a).symm
  | cons x t ih =>
    intro a
    rw [List.foldl_cons, List.foldl_cons, ih (a ++ x), ih (emptyStr ++ x),
      emptyStr_append, String.append_assoc]

theorem join_cons (x : String) (l : List String) :
    String.join (x :: l) = x ++ String.join l := by
  show (x :: l).foldl (fun r s => r ++ s) emptyStr = x ++ l.foldl (fun r s => r ++ s) emptyStr
  rw [List.foldl_cons, string_foldl_append l (emptyStr ++ x), emptyStr_append]

theorem intercalate_go_spec (sep : String) :
    ∀ (t : List String) (a y : String),
      String.intercalate.go a sep (y :: t) =
        a ++ sep ++ String.intercalate.go y sep t := by
  intro t
  induction t with
  | nil => intro a y; rfl
  | cons z t ih =>
    intro a y
    show String.intercalate.go (a ++ sep ++ y) sep (z :: t) = _
    rw [ih (a ++ sep ++ y) z, ih y z]
    simp [String.append_assoc]

/-- Joining with a separator after every element equals intercalating with
the separator and appending one trailing separator (nonempty lists). -/
theorem join_map_append_sep (sep : String) :
    ∀ (l : List String) (x : String),
      String.join ((x :: l).map (fun s => s ++ sep)) =
        String.intercalate sep (x :: l) ++ sep := by
  intro l
  induction l with
  | nil =>
    intro x
    show String.join [x ++ sep] = String.intercalate sep [x] ++ sep
    rw [join_cons]
    show x ++ sep ++ String.join [] = x ++ sep
    rw [show String.join [] = emptyStr from rfl, append_emptyStr]
  | cons y t ih =>
    intro x
    rw [List.map_cons, join_cons, ih y,
      show String.intercalate sep (x :: y :: t) = x ++ sep ++ String.intercalate sep (y :: t) from
        intercalate_go_spec sep t x y]
    simp [String.append_assoc]

theorem hashEncode_eq (seqs : List (List Nat)) :
    ∀ a : String, seqs.foldl (fun acc seq => acc ++ renderSeq seq ++ pipeSep) a =
      a ++ String.join (seqs.map (fun s => renderSeq s ++ pipeSep)) := by
  induction seqs with
  | nil => intro a; exact (String.append_empty a).symm
  | cons s t ih =>
    intro a
    rw [List.foldl_cons, ih, List.map_cons, join_cons]
    simp [String.append_assoc]

theorem sha256Round_length (st : List Nat) (kw : Nat × Nat) :
    (sha256Round st kw).length = st.length := by
  match st with
  | [] => rfl
  | [a] => rfl
  | [a, b] => rfl
  | [a, b, c] => rfl
  | [a, b, c, d] => rfl
  | [a, b, c, d, e] => rfl
  | [a, b, c, d, e, f] => rfl
  | [a, b, c, d, e, f, g] => rfl
  | [a, b, c, d, e, f, g, h] => rfl
  | a :: b :: c :: d :: e :: f :: g :: h :: i :: t => rfl

theorem foldl_sha256Round_length (l : List (Nat × Nat)) :
    ∀ st : List Nat, (l.foldl sha256Round st).length = st.length := by
  induction l with
  | nil => intro st; rfl
  | cons kw t ih =>
    intro st
    rw [List.foldl_cons, ih, sha256Round_length]

theorem sha256Compress_length (hs block : List Nat) :
    (sha256Compress hs block).length = hs.length := by
  simp [sha256Compress, List.length_zipWith, foldl_sha256Round_length]

theorem length_map_bytes4BE_flatten (l : List Nat) :
    ((l.map bytes4BE).flatten).length = 4 * l.length := by
  induction l with
  | nil => rfl
  | cons a t ih =>
    simp only [List.map_cons, List.flatten_cons, List.length_append, ih, bytes4BE,
      List.length_cons, List.length_nil]
    omega

theorem sha256_length (msg : List Nat) : (sha256 msg).length = 32 := by
  have hfold : ∀ (bs : List (List Nat)) (hs : List Nat),
      (bs.foldl sha256Compress hs).length = hs.length := by
    intro bs
    induction bs with
    | nil => intro hs; rfl
    | cons b t ih =>
      intro hs
      rw [List.foldl_cons, ih, sha256Compress_length]
  simp only [sha256, length_map_bytes4BE_flatten, hfold]
  rfl

theorem length_map_byteToHex_flatten (l : List Nat) :
    ((l.map byteToHex).flatten).length = 2 * l.length := by
  induction l with
  | nil => rfl
  | cons a t ih =>
    simp only [List.map_cons, List.flatten_cons, List.length_append, ih, byteToHex,
      List.length_cons, List.length_nil]
    omega

theorem hexDigitChar_mem (n : Nat) (h : n < 16) : hexDigitChar n ∈ hexAlphabet := by
  interval_cases n <;> decide

theorem bytesToHexString_chars (bs : List Nat) :
    ∀ c ∈ (bytesToHexString bs).data, c ∈ hexAlphabet := by
  intro c hc
  simp only [bytesToHexString] at hc
  obtain ⟨l, hl, hcl⟩ := List.mem_flatten.mp hc
  obtain ⟨b, _, hb⟩ := List.mem_map.mp hl
  subst hb
  simp only [byteToHex, List.mem_cons, List.not_mem_nil, or_false] at hcl
  rcases hcl with h | h
  · rw [h]
    exact hexDigitChar_mem _ (Nat.mod_lt _ (by omega))
  · rw [h]
    exact hexDigitChar_mem _ (Nat.mod_lt _ (by omega))

/-- C9: `hash_follow_sequences`.  (1) For every nonempty input the hashed
byte string is the decimal renderings of the sequences joined by the
separator with one trailing separator, and the token is the hex-encoded
SHA-256 of it; (2) the token is always 64 lowercase-hex characters (a
256-bit digest, hex-encoded); (3) the hashing is order-sensitive: swapping
the sequences `[1]` and `[2]` changes the token; (4) it is deterministic:
equal inputs give equal tokens (the embedding is a pure function). -/
theorem claim_C9 :
    (∀ s rest, hashFollowSequences (s :: rest) =
      bytesToHexString (sha256 (strBytes
        (String.intercalate pipeSep ((s :: rest).map renderSeq) ++ pipeSep)))) ∧
    (∀ seqs, (hashFollowSequences seqs).length = 64 ∧
      ∀ c ∈ (hashFollowSequences seqs).data, c ∈ hexAlphabet) ∧
    hashFollowSequences [[1], [2]] ≠ hashFollowSequences [[2], [1]] ∧
    (∀ s1 s2 : List (List Nat), s1 = s2 → hashFollowSequences s1 = hashFollowSequences s2) := by
  refine ⟨?_, ?_, ?_, ?_⟩
  · intro s rest
    rw [hashFollowSequences, hashEncode_eq, emptyStr_append]
    have hmap : ((s :: rest).map (fun q => renderSeq q ++ pipeSep)) =
        (((s :: rest).map renderSeq).map (fun r => r ++ pipeSep)) := by
      rw [List.map_map]
      rfl
    rw [hmap, show ((s :: rest).map renderSeq) = renderSeq s :: rest.map renderSeq from rfl,
      join_map_append_sep]
  · intro seqs
    constructor
    · show ((bytesToHexString _).data).length = 64
      rw [show (bytesToHexString (sha256 _)).data =
        (((sha256 (strBytes (seqs.foldl (fun acc seq => acc ++ renderSeq seq ++ pipeSep)
          emptyStr))).map byteToHex).flatten) from rfl]
      rw [length_map_byteToHex_flatten, sha256_length]
    · exact bytesToHexString_chars _
  · decide
  · intro s1 s2 h
    rw [h]

/-! ## Claim C6 — the matching rule -/

theorem getD_drop_zero (l : List Nat) (m i : Nat) :
    (l.drop m).getD i 0 = l.getD (m + i) 0 := by
  rcases lt_or_ge (m + i) l.length with h | h
  · rw [List.getD_eq_getElem l 0 h,
      List.getD_eq_getElem (l.drop m) 0 (by rw [List.length_drop]; omega)]
    exact List.getElem_drop ..
  · rw [List.getD_eq_default l 0 h,
      List.getD_eq_default (l.drop m) 0 (by rw [List.length_drop]; omega)]

theorem take_min_length (l : List Nat) (n : Nat) : l.take (min n l.length) = l.take n := by
  rcases le_total n l.length with h | h
  · rw [min_eq_left h]
  · rw [min_eq_right h, List.take_of_length_le h, List.take_of_length_le (le_refl _)]

theorem cumOffset_nil_spacing : ∀ i, cumOffset [] i = i := by
  intro i
  induction i with
  | zero => rfl
  | succ i ih => simp [cumOffset, ih]

theorem cumOffset_all_zero (s : List Nat) (hz : s.all (fun x => x = 0) = true) :
    ∀ i, cumOffset s i = i := by
  intro i
  induction i with
  | zero => rfl
  | succ i ih =>
    have hsi : s.getD i 0 = 0 := by
      rcases lt_or_ge i s.length with h | h
      · rw [List.getD_eq_getElem s 0 h]
        have hmem : s.get ⟨i, h⟩ ∈ s := s.get_mem i h
        have := List.all_eq_true.mp hz _ hmem
        simpa using this
      · exact List.getD_eq_default s 0 h
    show cumOffset s i + 1 + s.getD i 0 = i + 1
    rw [ih, hsi]

theorem cumOffset_shift (sp : List Nat) :
    ∀ i, cumOffset sp (i + 1) = 1 + sp.headD 0 + cumOffset sp.tail i := by
  intro i
  induction i with
  | zero =>
    show cumOffset sp 0 + 1 + sp.getD 0 0 = 1 + sp.headD 0 + 0
    cases sp <;> simp [cumOffset]
  | succ i ih =>
    show cumOffset sp (i + 1) + 1 + sp.getD (i + 1) 0 = 1 + sp.headD 0 + cumOffset sp.tail (i + 1)
    rw [ih]
    have : sp.getD (i + 1) 0 = sp.tail.getD i 0 := by cases sp <;> rfl
    rw [this]
    show _ = 1 + sp.headD 0 + (cumOffset sp.tail i + 1 + sp.tail.getD i 0)
    omega

theorem contiguousMatch_iff : ∀ (ds suffix : List Nat), ds.length ≤ suffix.length →
    (contiguousMatch ds suffix = true ↔ ∀ i < ds.length, suffix.getD i 0 = ds.getD i 0) := by
  intro ds
  induction ds with
  | nil =>
    intro suffix _
    simp [contiguousMatch]
  | cons d ds ih =>
    intro suffix hlen
    cases suffix with
    | nil => simp at hlen
    | cons s t =>
      simp only [contiguousMatch, Bool.and_eq_true, decide_eq_true_eq]
      rw [ih t (by simpa using hlen)]
      constructor
      · rintro ⟨hd, hrest⟩ i hi
        cases i with
        | zero => simpa using hd.symm
        | succ i => exact hrest i (by simpa using hi)
      · intro h
        refine ⟨(h 0 (by simp)).symm, fun i hi => h (i + 1) (by simpa using hi)⟩

theorem spacedWalk_cons (stream : List Nat) (d : Nat) (ds sp : List Nat) (pos : Nat) :
    spacedWalk stream (d :: ds) sp pos =
      (if stream.length ≤ pos then none
       else if stream.getD pos 0 ≠ d then none
       else match ds with
         | [] => some (pos + 1)
         | _ :: _ => spacedWalk stream ds sp.tail (pos + 1 + sp.headD 0)) := rfl

theorem spacedWalk_spec (stream : List Nat) :
    ∀ (digits : List Nat) (sp : List Nat) (pos : Nat), digits ≠ [] →
      spacedWalk stream digits sp pos =
        (if ∀ i < digits.length, pos + cumOffset sp i < stream.length ∧
            stream.getD (pos + cumOffset sp i) 0 = digits.getD i 0
         then some (pos + cumOffset sp (digits.length - 1) + 1)
         else none) := by
  intro digits
  induction digits with
  | nil => intro sp pos h; exact absurd rfl h
  | cons d ds ih =>
    intro sp pos _
    rw [spacedWalk_cons]
    by_cases hpos : stream.length ≤ pos
    · rw [if_pos hpos, if_neg]
      intro hall
      have := (hall 0 (by simp)).1
      simp only [cumOffset, Nat.add_zero] at this
      omega
    · rw [if_neg hpos]
      by_cases hd : stream.getD pos 0 = d
      · rw [if_neg (by simpa using hd)]
        cases ds with
        | nil =>
          rw [if_pos]
          · rfl
          · intro i hi
            have hi0 : i = 0 := by simpa using hi
            subst hi0
            exact ⟨by simpa [cumOffset] using lt_of_not_ge hpos, by simpa [cumOffset] using hd⟩
        | cons d2 ds2 =>
          show spacedWalk stream (d2 :: ds2) sp.tail (pos + 1 + sp.headD 0) = _
          rw [ih sp.tail (pos + 1 + sp.headD 0) (List.cons_ne_nil d2 ds2)]
          have hshift : ∀ i, pos + 1 + sp.headD 0 + cumOffset sp.tail i =
              pos + cumOffset sp (i + 1) := by
            intro i
            rw [cumOffset_shift]
            omega
          by_cases hcond : ∀ i < (d2 :: ds2).length,
              pos + 1 + sp.headD 0 + cumOffset sp.tail i < stream.length ∧
              stream.getD (pos + 1 + sp.headD 0 + cumOffset sp.tail i) 0 = (d2 :: ds2).getD i 0
          · rw [if_pos hcond, if_pos]
            · congr 1
              rw [hshift ((d2 :: ds2).length - 1)]
              have hidx : (d :: d2 :: ds2).length - 1 = ((d2 :: ds2).length - 1) + 1 := by
                simp only [List.length_cons]
                omega
              rw [hidx]
            · intro i hi
              cases i with
              | zero =>
                refine ⟨by simpa [cumOffset] using lt_of_not_ge hpos,
                  by simpa [cumOffset] using hd⟩
              | succ i =>
                have hi' : i < (d2 :: ds2).length := by simpa using hi
                have hh := hcond i hi'
                rw [hshift i] at hh
                exact ⟨hh.1, by simpa using hh.2⟩
          · rw [if_neg hcond, if_neg]
            intro hall
            apply hcond
            intro i hi
            have hh := hall (i + 1) (by simpa using hi)
            rw [← hshift i] at hh
            exact ⟨hh.1, by simpa using hh.2⟩
      · rw [if_pos (by simpa using hd), if_neg]
        intro hall
        have := (hall 0 (by simp)).2
        simp only [cumOffset, Nat.add_zero] at this
        exact hd (by simpa using this)

/-- C6: `match_at_position` implements exactly the claimed rule.  For a
nonempty pattern with a well-formed spacing list (or none), a match at `p`
succeeds iff every pattern digit is matched in bounds at the cumulative
offsets, in which case the end position is `p + c_last + 1`; and the follow
sequence extracted at any end position is `stream[end .. end+follow_digits)`
truncated (possibly to empty) at the stream's end, never an error. -/
theorem claim_C6 (p : Pattern) (stream : List Nat) (startPos : Nat)
    (hne : p.digits ≠ [])
    (_hshape : p.spacing = none ∨
      ∃ s, p.spacing = some s ∧ s.length + 1 = p.digits.length) :
    (p.matchAt stream startPos =
      (if ∀ i < p.digits.length,
          startPos + cumOffset (p.spacing.getD []) i < stream.length ∧
          stream.getD (startPos + cumOffset (p.spacing.getD []) i) 0 = p.digits.getD i 0
       then some (startPos + cumOffset (p.spacing.getD []) (p.digits.length - 1) + 1)
       else none)) ∧
    (∀ followDigits endPos,
      extractFollowDigits followDigits stream endPos =
        (stream.drop endPos).take followDigits) := by
  have hnpos : 0 < p.digits.length := List.length_pos.mpr hne
  constructor
  · by_cases hcont : p.isContiguous = true
    · have hsz : ∀ i, cumOffset (p.spacing.getD []) i = i := by
        cases hsp : p.spacing with
        | none => exact cumOffset_nil_spacing
        | some s =>
          have hall : s.all (fun x => x = 0) = true := by
            have hc := hcont
            rw [Pattern.isContiguous, hsp] at hc
            exact hc
          exact cumOffset_all_zero s hall
      simp only [hsz]
      simp only [Pattern.matchAt, hcont, if_true]
      by_cases hcond : ∀ i < p.digits.length, startPos + i < stream.length ∧
          stream.getD (startPos + i) 0 = p.digits.getD i 0
      · rw [if_pos hcond]
        have h0 : startPos < stream.length := by
          have := (hcond 0 hnpos).1
          omega
        have hlast : startPos + (p.digits.length - 1) < stream.length :=
          (hcond (p.digits.length - 1) (by omega)).1
        have hfit : startPos + p.digits.length ≤ stream.length := by omega
        rw [if_neg (by omega : ¬ stream.length ≤ startPos),
          if_neg (by omega : ¬ stream.length < startPos + p.digits.length)]
        have hcm : contiguousMatch p.digits (stream.drop startPos) = true := by
          rw [contiguousMatch_iff p.digits (stream.drop startPos)
            (by rw [List.length_drop]; omega)]
          intro i hi
          rw [getD_drop_zero]
          exact (hcond i hi).2
        rw [if_pos hcm]
        congr 1
        omega
      · rw [if_neg hcond]
        by_cases hguard : stream.length ≤ startPos
        · rw [if_pos hguard]
        · rw [if_neg hguard]
          by_cases hbound : stream.length < startPos + p.digits.length
          · rw [if_pos hbound]
          · rw [if_neg hbound]
            have hcm : ¬ contiguousMatch p.digits (stream.drop startPos) = true := by
              intro hcm
              apply hcond
              intro i hi
              have := (contiguousMatch_iff p.digits (stream.drop startPos)
                (by rw [List.length_drop]; omega)).mp hcm i hi
              rw [getD_drop_zero] at this
              exact ⟨by omega, this⟩
            rw [if_neg hcm]
    · cases hds : p.digits with
      | nil => exact absurd hds hne
      | cons d ds =>
        have hwalk := spacedWalk_spec stream (d :: ds) (p.spacing.getD []) startPos
          (List.cons_ne_nil d ds)
        by_cases hguard : stream.length ≤ startPos
        · rw [Pattern.matchAt.eq_def, if_pos hguard, if_neg]
          intro hall
          have := (hall 0 (by simp)).1
          simp only [cumOffset] at this
          omega
        · rw [Pattern.matchAt.eq_def, if_neg hguard, if_neg (by simpa using hcont), hds]
          exact hwalk
  · intro fd e
    simp only [extractFollowDigits]
    by_cases h : min fd (stream.length - e) = 0
    · rw [if_pos h]
      rcases Nat.min_eq_zero_iff.mp h with h0 | h0
      · rw [h0, List.take_zero]
      · rw [List.drop_eq_nil_of_le (by omega), List.take_nil]
    · rw [if_neg h, ← List.length_drop, take_min_length]

/-- C6 (witness): the matching rule at a planted gapped pattern
(`digits = [3,1,9]`, `spacing = [2,3]`) in a concrete stream: match at
position 2, end position 10, follow sequence `[7, 7]`. -/
theorem claim_C6_witness :
    (Pattern.mk [3, 1, 9] (some [2, 3])).matchAt [0, 0, 3, 5, 5, 1, 9, 9, 9, 9, 7, 7] 2 =
      some 10 ∧
    extractFollowDigits 2 [0, 0, 3, 5, 5, 1, 9, 9, 9, 9, 7, 7] 10 = [7, 7] := by
  have h := claim_C6 (Pattern.mk [3, 1, 9] (some [2, 3])) [0, 0, 3, 5, 5, 1, 9, 9, 9, 9, 7, 7] 2
    (by decide) (Or.inr ⟨[2, 3], rfl, by decide⟩)
  constructor
  · rw [h.1]
    decide
  · rw [h.2 2 10]
    decide

/-! ## Claim C5 — the synthesis formula and chunk independence -/

theorem fracDigits_lt_ten (file : List Nat) : ∀ x ∈ fracDigits file, x < 10 := by
  intro x hx
  simp only [fracDigits] at hx
  obtain ⟨b, hb, hbv⟩ := List.mem_map.mp hx
  exact hbv ▸ digitVal_lt_ten (List.of_mem_filter hb)

theorem fracDigits_getD_lt_ten (file : List Nat) (i : Nat) :
    (fracDigits file).getD i 0 < 10 := by
  rcases lt_or_ge i (fracDigits file).length with h | h
  · rw [List.getD_eq_getElem _ 0 h]
    exact fracDigits_lt_ten file _ (List.getElem_mem h)
  · rw [List.getD_eq_default _ 0 h]
    omega

theorem slice_shift (l : List Nat) :
    ∀ (n a o : Nat), o + a + n ≤ l.length →
      (l.drop (o + a)).take n = (List.range' a n).map (fun i => l.getD (o + i) 0) := by
  intro n
  induction n with
  | zero => intro a o _; simp
  | succ n ih =>
    intro a o h
    have hlt : o + a < l.length := by omega
    rw [List.drop_eq_getElem_cons hlt, List.range'_succ]
    simp only [List.take_succ_cons, List.map_cons]
    congr 1
    · rw [List.getD_eq_getElem l 0 hlt]
    · have := ih (a + 1) o (by omega)
      rw [show o + (a + 1) = o + a + 1 by omega] at this
      exact this

theorem zipWith_map_same (f : Nat → Nat → Nat) (g h : Nat → Nat) :
    ∀ l : List Nat, List.zipWith f (l.map g) (l.map h) = l.map (fun x => f (g x) (h x)) := by
  intro l
  induction l with
  | nil => rfl
  | cons a t ih => simp [ih]

theorem getD_map_range' (f : Nat → Nat) (n i : Nat) (h : i < n) :
    ((List.range' 0 n).map f).getD i 0 = f i := by
  have hi : i < ((List.range' 0 n).map f).length := by
    rw [List.length_map, List.length_range']
    exact h
  rw [List.getD_eq_getElem _ 0 hi]
  rw [List.getElem_map, List.getElem_range']
  simp

/-- One `addOffsetChunk` fold step preserves the "map of a partial sum mod m"
shape of the accumulator. -/
theorem chunk_fold_spec (file : List Nat) (start len m fuel : Nat)
    (hm : 0 < m) (hm2 : m ≤ 247) (hfuel : file.length + 1 ≤ fuel) (hlen : 0 < len) :
    ∀ (offs : List Nat) (b : Nat → Nat),
      (∀ o ∈ offs, o + start + len ≤ (fracDigits file).length) →
      offs.foldl (addOffsetChunk file start len m fuel)
        (some ((List.range' start len).map (fun i => b i % m))) =
      some ((List.range' start len).map (fun i =>
        (b i + ((offs.map (fun o => (fracDigits file).getD (o + i) 0)).sum)) % m)) := by
  intro offs
  induction offs with
  | nil =>
    intro b _
    simp
  | cons o offs ih =>
    intro b hoffs
    have hbound : o + start + len ≤ (fracDigits file).length := hoffs o (List.mem_cons_self o offs)
    have hread : getDigits file (o + start) len fuel = some
        ((List.range' start len).map (fun i => (fracDigits file).getD (o + i) 0)) := by
      rw [getDigits_spec file (o + start) len fuel hlen (by omega) hfuel]
      congr 1
      exact slice_shift (fracDigits file) len start o (by omega)
    rw [List.foldl_cons]
    have hstep : addOffsetChunk file start len m fuel
        (some ((List.range' start len).map (fun i => b i % m))) o =
        some ((List.range' start len).map
          (fun i => (b i + (fracDigits file).getD (o + i) 0) % m)) := by
      simp only [addOffsetChunk, hread]
      congr 1
      rw [zipWith_map_same]
      apply List.map_congr_left
      intro i _
      have hb : b i % m < m := Nat.mod_lt _ hm
      have hd : (fracDigits file).getD (o + i) 0 < 10 := fracDigits_getD_lt_ten file (o + i)
      have hsmall : (b i % m + (fracDigits file).getD (o + i) 0) % 256 =
          b i % m + (fracDigits file).getD (o + i) 0 := Nat.mod_eq_of_lt (by omega)
      rw [hsmall, Nat.add_mod (b i % m), Nat.mod_mod_of_dvd (b i) (dvd_refl m),
        ← Nat.add_mod]
    rw [hstep,
      ih (fun i => b i + (fracDigits file).getD (o + i) 0)
        (fun o2 ho2 => hoffs o2 (List.mem_cons_of_mem o ho2))]
    congr 1
    apply List.map_congr_left
    intro i _
    simp only [List.map_cons, List.sum_cons]
    congr 1
    omega

/-- A chunk computed by `_generate_stream_chunk` equals the specification's
per-index formula, provided every read stays within the stored digits. -/
theorem generateStreamChunk_spec (fileA fileB : List Nat) (start stop m fuel : Nat)
    (offsA offsB : List Nat)
    (hm : 0 < m) (hm2 : m ≤ 247)
    (hfuelA : fileA.length + 1 ≤ fuel) (hfuelB : fileB.length + 1 ≤ fuel)
    (hlt : start < stop)
    (hoffsA : ∀ o ∈ offsA, o + stop ≤ (fracDigits fileA).length)
    (hoffsB : ∀ o ∈ offsB, o + stop ≤ (fracDigits fileB).length) :
    generateStreamChunk fileA fileB start stop offsA offsB m fuel =
      some ((List.range' start (stop - start)).map (fun i =>
        ((offsA.map (fun o => (fracDigits fileA).getD (o + i) 0)).sum +
         (offsB.map (fun o => (fracDigits fileB).getD (o + i) 0)).sum) % m)) := by
  have hlen : 0 < stop - start := by omega
  have hzero : List.replicate (stop - start) 0 =
      (List.range' start (stop - start)).map (fun i => (0 : Nat) % m) := by
    rw [List.map_const', List.length_range']
    rw [Nat.zero_mod]
  rw [generateStreamChunk, hzero]
  rw [chunk_fold_spec fileA start (stop - start) m fuel hm hm2 hfuelA hlen offsA
    (fun i => 0) (fun o ho => by have := hoffsA o ho; omega)]
  simp only [Nat.zero_add]
  rw [chunk_fold_spec fileB start (stop - start) m fuel hm hm2 hfuelB hlen offsB
    (fun i => (offsA.map (fun o => (fracDigits fileA).getD (o + i) 0)).sum)
    (fun o ho => by have := hoffsB o ho; omega)]

/-- Recurrence for the chunk count `ceil((stop - start) / cs)`. -/
theorem chunk_count_rec (D cs : Nat) (hD : 0 < D) (hcs : 0 < cs) :
    (D + cs - 1) / cs = (D - cs + cs - 1) / cs + 1 := by
  rcases le_or_lt D cs with h | h
  · have h1 : D + cs - 1 = (D - 1) + cs := by omega
    have h2 : D - cs + cs - 1 = cs - 1 := by omega
    rw [h1, Nat.add_div_right _ hcs, h2,
      Nat.div_eq_of_lt (by omega : cs - 1 < cs), Nat.div_eq_of_lt (by omega : D - 1 < cs)]
  · have h1 : D + cs - 1 = (D - cs + cs - 1) + cs := by omega
    rw [h1, Nat.add_div_right _ hcs]

/-- The head-chunk decomposition of `chunkList`. -/
theorem chunkList_cons (start stop cs : Nat) (hcs : 0 < cs) (hlt : start < stop) :
    chunkList start stop cs =
      (start, min (start + cs) stop) :: chunkList (start + cs) stop cs := by
  rw [chunkList, chunkList]
  have hD : 0 < stop - start := by omega
  have hcount : (stop - start + cs - 1) / cs = (stop - (start + cs) + cs - 1) / cs + 1 := by
    have := chunk_count_rec (stop - start) cs hD hcs
    rw [this]
    congr 2
    omega
  rw [hcount, List.range'_succ, List.map_cons, max_self]
  congr 1
  apply List.map_congr_left
  intro i hi
  have hge : start + cs ≤ i := by
    have := List.mem_range'.mp hi
    obtain ⟨j, _, hj⟩ := this
    omega
  rw [max_eq_right (by omega), max_eq_right (by omega)]

theorem chunks_fold_spec (fileA fileB offsA offsB : List Nat) (m fuel cs stop : Nat)
    (hcs : 0 < cs) (hm : 0 < m) (hm2 : m ≤ 247)
    (hfuelA : fileA.length + 1 ≤ fuel) (hfuelB : fileB.length + 1 ≤ fuel)
    (hoffsA : ∀ o ∈ offsA, o + stop ≤ (fracDigits fileA).length)
    (hoffsB : ∀ o ∈ offsB, o + stop ≤ (fracDigits fileB).length) :
    ∀ D start, stop - start = D →
      (chunkList start stop cs).foldr (fun c acc =>
        match generateStreamChunk fileA fileB c.1 c.2 offsA offsB m fuel, acc with
        | some r, some rs => some (r ++ rs)
        | _, _ => none) (some []) =
      some ((List.range' start (stop - start)).map (fun i =>
        ((offsA.map (fun o => (fracDigits fileA).getD (o + i) 0)).sum +
         (offsB.map (fun o => (fracDigits fileB).getD (o + i) 0)).sum) % m)) := by
  intro D
  induction D using Nat.strong_induction_on with
  | _ D ih =>
    intro start hD
    by_cases hlt : start < stop
    · have hchunk := generateStreamChunk_spec fileA fileB start (min (start + cs) stop) m fuel
        offsA offsB hm hm2 hfuelA hfuelB (by omega)
        (fun o ho => by have := hoffsA o ho; omega)
        (fun o ho => by have := hoffsB o ho; omega)
      have hrec := ih (stop - (start + cs)) (by omega) (start + cs) rfl
      rw [chunkList_cons start stop cs hcs hlt, List.foldr_cons]
      simp only [hrec, hchunk]
      rw [← List.map_append]
      rcases le_or_lt cs (stop - start) with hc | hc
      · rw [min_eq_left (by omega)]
        have h1 : start + cs - start = cs := by omega
        rw [h1, List.range'_append_1]
        have h2 : stop - (start + cs) + cs = stop - start := by omega
        rw [h2]
      · rw [min_eq_right (by omega)]
        have h2 : stop - (start + cs) = 0 := by omega
        rw [h2]
        simp
    · have h0 : stop - start = 0 := by omega
      rw [chunkList, h0]
      have hc0 : (0 + cs - 1) / cs = 0 := by
        rw [Nat.zero_add]
        exact Nat.div_eq_of_lt (by omega)
      rw [hc0]
      simp

/-- `generate_synthetic_stream` computes the specification's per-index
formula, independent of the worker count. -/
theorem generateSyntheticStream_spec (fileA fileB offsA offsB : List Nat)
    (length m threads fuel : Nat)
    (hlen : 0 < length) (hm : 0 < m) (hm2 : m ≤ 247)
    (hfuelA : fileA.length + 1 ≤ fuel) (hfuelB : fileB.length + 1 ≤ fuel)
    (hoffsA : ∀ o ∈ offsA, o + length ≤ (fracDigits fileA).length)
    (hoffsB : ∀ o ∈ offsB, o + length ≤ (fracDigits fileB).length) :
    generateSyntheticStream fileA fileB offsA offsB length m threads fuel =
      some ((List.range' 0 length).map (fun i =>
        ((offsA.map (fun o => (fracDigits fileA).getD (o + i) 0)).sum +
         (offsB.map (fun o => (fracDigits fileB).getD (o + i) 0)).sum) % m)) := by
  have hcs : 0 < max 1 (length / threads) := by omega
  have hne : (chunkList 0 length (max 1 (length / threads))).isEmpty = false := by
    rw [chunkList_cons 0 length (max 1 (length / threads)) hcs hlen]
    rfl
  simp only [generateSyntheticStream, hne, Bool.false_eq_true, if_false]
  have := chunks_fold_spec fileA fileB offsA offsB m fuel (max 1 (length / threads)) length
    hcs hm hm2 hfuelA hfuelB hoffsA hoffsB length 0 (by omega)
  simpa using this

theorem take_one_drop (l : List Nat) (a : Nat) (h : a < l.length) :
    (l.drop a).take 1 = [l.getD a 0] := by
  rw [List.drop_eq_getElem_cons h, List.take_succ_cons, List.take_zero,
    List.getD_eq_getElem l 0 h]

/-- C5 (counterexample): with the repository's own fallback π file and a
single offset `150` past the 100 stored fractional digits, the synthesized
stream differs between a 1-chunk and a 2-chunk split (`[3,1,4,1]` versus
`[3,1,3,1]`), and neither agrees with the claimed per-index formula, which
predicts digit `3` at index 1 (`digits_at(A, 151, 1) = [3]`) where the
single-chunk stream has `1`.  The skip-cursor stall at end-of-file makes
each chunk restart the wrapped read from the top of the file, so the value
at an index depends on which chunk computed it. -/
theorem claim_C5_counterexample :
    generateSyntheticStream piStartBytes piStartBytes [150] [] 4 10 1 300 = some [3, 1, 4, 1] ∧
    generateSyntheticStream piStartBytes piStartBytes [150] [] 4 10 2 300 = some [3, 1, 3, 1] ∧
    generateSyntheticStream piStartBytes piStartBytes [150] [] 4 10 1 300 ≠
      generateSyntheticStream piStartBytes piStartBytes [150] [] 4 10 2 300 ∧
    (([150].map (fun o => ((getDigits piStartBytes (o + 1) 1 300).getD []).sum)).sum +
      (([] : List Nat).map (fun o => ((getDigits piStartBytes (o + 1) 1 300).getD []).sum)).sum)
      % 10 = 3 := by
  refine ⟨by decide, by decide, ?_, by decide⟩
  intro h
  rw [(by decide : generateSyntheticStream piStartBytes piStartBytes [150] [] 4 10 1 300 =
    some [3, 1, 4, 1])] at h
  rw [(by decide : generateSyntheticStream piStartBytes piStartBytes [150] [] 4 10 2 300 =
    some [3, 1, 3, 1])] at h
  simp at h

/-- C5 (amended): the claimed formula
`stream[i] = (Σ digits_at(A, o+i, 1) + Σ digits_at(B, o+i, 1)) mod modulus`
and independence from the chunk split both hold whenever every read stays
within the stored fractional digits (`o + length` at most the stored count
for every offset `o`), the modulus is positive and at most 247 (so the
`uint8` additions cannot wrap), and the stream is nonempty. -/
theorem claim_C5_amended (fileA fileB offsA offsB : List Nat)
    (length m threads fuel : Nat)
    (hlen : 0 < length) (hm : 0 < m) (hm2 : m ≤ 247) (_hthreads : 0 < threads)
    (hfuelA : fileA.length + 1 ≤ fuel) (hfuelB : fileB.length + 1 ≤ fuel)
    (hoffsA : ∀ o ∈ offsA, o + length ≤ (fracDigits fileA).length)
    (hoffsB : ∀ o ∈ offsB, o + length ≤ (fracDigits fileB).length) :
    ∃ stream,
      generateSyntheticStream fileA fileB offsA offsB length m threads fuel = some stream ∧
      stream.length = length ∧
      (∀ i, i < length → stream.getD i 0 =
        ((offsA.map (fun o => ((getDigits fileA (o + i) 1 fuel).getD []).sum)).sum +
         (offsB.map (fun o => ((getDigits fileB (o + i) 1 fuel).getD []).sum)).sum) % m) ∧
      (∀ threads2, 0 < threads2 →
        generateSyntheticStream fileA fileB offsA offsB length m threads2 fuel =
          generateSyntheticStream fileA fileB offsA offsB length m threads fuel) := by
  have hspec := generateSyntheticStream_spec fileA fileB offsA offsB length m threads fuel
    hlen hm hm2 hfuelA hfuelB hoffsA hoffsB
  refine ⟨_, hspec, ?_, ?_, ?_⟩
  · rw [List.length_map, List.length_range']
  · intro i hi
    rw [getD_map_range' _ length i hi]
    have hA : (offsA.map (fun o => (fracDigits fileA).getD (o + i) 0)) =
        (offsA.map (fun o => ((getDigits fileA (o + i) 1 fuel).getD []).sum)) := by
      apply List.map_congr_left
      intro o ho
      have hb : o + i < (fracDigits fileA).length := by
        have := hoffsA o ho
        omega
      rw [getDigits_spec fileA (o + i) 1 fuel (le_refl 1) (by omega) hfuelA,
        take_one_drop (fracDigits fileA) (o + i) hb]
      simp
    have hB : (offsB.map (fun o => (fracDigits fileB).getD (o + i) 0)) =
        (offsB.map (fun o => ((getDigits fileB (o + i) 1 fuel).getD []).sum)) := by
      apply List.map_congr_left
      intro o ho
      have hb : o + i < (fracDigits fileB).length := by
        have := hoffsB o ho
        omega
      rw [getDigits_spec fileB (o + i) 1 fuel (le_refl 1) (by omega) hfuelB,
        take_one_drop (fracDigits fileB) (o + i) hb]
      simp
    rw [hA, hB]
  · intro threads2 _
    rw [hspec, generateSyntheticStream_spec fileA fileB offsA offsB length m threads2 fuel
      hlen hm hm2 hfuelA hfuelB hoffsA hoffsB]

/-- C5 (witness): the amended theorem at the concrete file `"3.14159"`,
offsets `[1]` and `[2]`, `length = 3`, `modulus = 10`, two workers. -/
theorem claim_C5_witness :
    ∃ stream,
      generateSyntheticStream sevenPiBytes sevenPiBytes [1] [2] 3 10 2 20 = some stream ∧
      stream.length = 3 ∧
      (∀ i, i < 3 → stream.getD i 0 =
        (([1].map (fun o => ((getDigits sevenPiBytes (o + i) 1 20).getD []).sum)).sum +
         ([2].map (fun o => ((getDigits sevenPiBytes (o + i) 1 20).getD []).sum)).sum) % 10) ∧
      (∀ threads2, 0 < threads2 →
        generateSyntheticStream sevenPiBytes sevenPiBytes [1] [2] 3 10 threads2 20 =
          generateSyntheticStream sevenPiBytes sevenPiBytes [1] [2] 3 10 2 20) :=
  claim_C5_amended sevenPiBytes sevenPiBytes [1] [2] 3 10 2 20
    (by decide) (by decide) (by decide) (by decide) (by decide) (by decide)
    (by decide) (by decide)

/-! ## Claim C2 — parallel versus sequential pattern search -/

theorem allMatches_nil (p : Pattern) (fd : Nat) (stream : List Nat) :
    allMatches p fd stream [] = [] := rfl

theorem allMatches_cons_none (p : Pattern) (fd : Nat) (stream : List Nat) (q : Nat)
    (ps : List Nat) (h : p.matchAt stream q = none) :
    allMatches p fd stream (q :: ps) = allMatches p fd stream ps := by
  simp [allMatches, List.filterMap_cons, h]

theorem allMatches_cons_some (p : Pattern) (fd : Nat) (stream : List Nat) (q e : Nat)
    (ps : List Nat) (h : p.matchAt stream q = some e) :
    allMatches p fd stream (q :: ps) =
      (q, extractFollowDigits fd stream e) :: allMatches p fd stream ps := by
  simp [allMatches, List.filterMap_cons, h]

theorem allMatches_append (p : Pattern) (fd : Nat) (stream : List Nat)
    (ps qs : List Nat) :
    allMatches p fd stream (ps ++ qs) =
      allMatches p fd stream ps ++ allMatches p fd stream qs := by
  simp [allMatches, List.filterMap_append]

theorem searchPositions_spec (p : Pattern) (fd : Nat) (stream : List Nat) (m : Nat) :
    ∀ (ps : List Nat) (acc : List (Nat × List Nat)), acc.length < m →
      searchPositions p fd stream m ps acc =
        acc ++ (allMatches p fd stream ps).take (m - acc.length) := by
  intro ps
  induction ps with
  | nil =>
    intro acc _
    simp [searchPositions, allMatches]
  | cons q ps ih =>
    intro acc hacc
    cases hmatch : p.matchAt stream q with
    | none =>
      simp only [searchPositions, hmatch]
      rw [ih acc hacc, allMatches_cons_none p fd stream q ps hmatch]
    | some e =>
      simp only [searchPositions, hmatch]
      rw [allMatches_cons_some p fd stream q e ps hmatch]
      by_cases hfull : m ≤ (acc ++ [(q, extractFollowDigits fd stream e)]).length
      · rw [if_pos hfull]
        have hm1 : m - acc.length = 1 := by
          simp only [List.length_append, List.length_cons, List.length_nil] at hfull
          omega
        rw [hm1]
        simp
      · rw [if_neg hfull]
        have hlt : (acc ++ [(q, extractFollowDigits fd stream e)]).length < m :=
          lt_of_not_ge hfull
        rw [ih _ hlt]
        have hsplit : m - acc.length =
            (m - (acc ++ [(q, extractFollowDigits fd stream e)]).length) + 1 := by
          simp only [List.length_append, List.length_cons, List.length_nil] at hlt ⊢
          omega
        rw [hsplit, List.take_succ_cons]
        simp [List.append_assoc]

theorem findPatternSequential_spec (p : Pattern) (fd : Nat) (stream : List Nat)
    (m startFrom : Nat) (hm : 1 ≤ m) :
    findPatternSequential p fd stream m startFrom =
      (allMatches p fd stream
        (pyRange startFrom ((stream.length : Int) - p.digits.length + 1))).take m := by
  rw [findPatternSequential,
    searchPositions_spec p fd stream m _ [] (by simpa using hm)]
  simp

theorem searchChunk_spec (p : Pattern) (fd : Nat) (stream : List Nat) (m : Nat)
    (c : Nat × Nat) (hm : 1 ≤ m) :
    searchChunk p fd stream m c =
      (allMatches p fd stream (List.range' c.1 (c.2 - c.1))).take m := by
  rw [searchChunk, searchPositions_spec p fd stream m _ [] (by simpa using hm)]
  simp [pyRange, Int.toNat_sub]

theorem collectChunks_prefix (p : Pattern) (fd : Nat) (stream : List Nat) (m : Nat)
    (hm : 1 ≤ m) :
    ∀ (chunks : List (Nat × Nat)) (acc : List (Nat × List Nat)),
      ∃ K, collectChunks p fd stream m chunks acc =
        acc ++ (allMatches p fd stream
          ((chunks.map (fun c => List.range' c.1 (c.2 - c.1))).flatten)).take K ∧
        (m ≤ acc.length + K ∨
          (allMatches p fd stream
            ((chunks.map (fun c => List.range' c.1 (c.2 - c.1))).flatten)).take K =
          allMatches p fd stream
            ((chunks.map (fun c => List.range' c.1 (c.2 - c.1))).flatten)) := by
  intro chunks
  induction chunks with
  | nil =>
    intro acc
    refine ⟨0, by simp [collectChunks, allMatches], Or.inr (by simp [allMatches])⟩
  | cons c rest ih =>
    intro acc
    simp only [collectChunks]
    rw [searchChunk_spec p fd stream m c hm]
    simp only [List.map_cons, List.flatten_cons, allMatches_append]
    by_cases hfull : m ≤
        (acc ++ (allMatches p fd stream (List.range' c.1 (c.2 - c.1))).take m).length
    · rw [if_pos hfull]
      refine ⟨min m (allMatches p fd stream (List.range' c.1 (c.2 - c.1))).length, ?_, ?_⟩
      · rw [List.take_append_eq_append_take]
        have h1 : min m (allMatches p fd stream (List.range' c.1 (c.2 - c.1))).length -
            (allMatches p fd stream (List.range' c.1 (c.2 - c.1))).length = 0 := by omega
        rw [h1, List.take_zero, List.append_nil]
        congr 1
        rcases le_total m (allMatches p fd stream (List.range' c.1 (c.2 - c.1))).length with h | h
        · rw [min_eq_left h]
        · rw [min_eq_right h, List.take_of_length_le h, List.take_of_length_le (le_refl _)]
      · left
        simp only [List.length_append, List.length_take] at hfull
        omega
    · rw [if_neg hfull]
      obtain ⟨K, hK, hside⟩ :=
        ih (acc ++ (allMatches p fd stream (List.range' c.1 (c.2 - c.1))).take m)
      have hAcfull : (allMatches p fd stream (List.range' c.1 (c.2 - c.1))).take m =
          allMatches p fd stream (List.range' c.1 (c.2 - c.1)) := by
        have hlen := lt_of_not_ge hfull
        simp only [List.length_append, List.length_take] at hlen
        exact List.take_of_length_le (by omega)
      refine ⟨(allMatches p fd stream (List.range' c.1 (c.2 - c.1))).length + K, ?_, ?_⟩
      · rw [hK, hAcfull, List.take_append]
        simp [List.append_assoc]
      · rcases hside with hside | hside
        · left
          simp only [List.length_append, List.length_take] at hside
          omega
        · right
          rw [List.take_append, hside]

theorem pairwise_allMatches (p : Pattern) (fd : Nat) (stream : List Nat) :
    ∀ ps : List Nat, ps.Pairwise (· ≤ ·) →
      (allMatches p fd stream ps).Pairwise (posLe · ·) := by
  intro ps
  induction ps with
  | nil => intro _; simp [allMatches]
  | cons q ps ih =>
    intro h
    cases hm : p.matchAt stream q with
    | none =>
      rw [allMatches_cons_none p fd stream q ps hm]
      exact ih (List.Pairwise.of_cons h)
    | some e =>
      rw [allMatches_cons_some p fd stream q e ps hm]
      constructor
      · intro y hy
        obtain ⟨q2, hq2, heq⟩ := List.mem_filterMap.mp hy
        cases hm2 : p.matchAt stream q2 with
        | none => rw [hm2] at heq; exact absurd heq (by simp)
        | some e2 =>
          rw [hm2] at heq
          simp only [Option.map_some', Option.some.injEq] at heq
          have hq : q ≤ q2 := (List.pairwise_cons.mp h).1 q2 hq2
          rw [← heq]
          simp [posLe, hq]
      · exact ih (List.Pairwise.of_cons h)

theorem chunkList_positions (cs stop : Nat) (hcs : 0 < cs) :
    ∀ D start, stop - start = D →
      ((chunkList start stop cs).map (fun c => List.range' c.1 (c.2 - c.1))).flatten =
        List.range' start (stop - start) := by
  intro D
  induction D using Nat.strong_induction_on with
  | _ D ih =>
    intro start hD
    by_cases hlt : start < stop
    · rw [chunkList_cons start stop cs hcs hlt, List.map_cons, List.flatten_cons,
        ih (stop - (start + cs)) (by omega) (start + cs) rfl]
      rcases le_or_lt cs (stop - start) with hc | hc
      · rw [min_eq_left (by omega)]
        have h1 : start + cs - start = cs := by omega
        rw [h1, List.range'_append_1]
        congr 1
        omega
      · rw [min_eq_right (by omega)]
        have h2 : stop - (start + cs) = 0 := by omega
        rw [h2]
        have h3 : min (start + cs) stop - start = stop - start := by omega
        simp [h3]
    · have h0 : stop - start = 0 := by omega
      rw [chunkList, h0]
      have hc0 : (0 + cs - 1) / cs = 0 := by
        rw [Nat.zero_add]
        exact Nat.div_eq_of_lt (by omega)
      rw [hc0]
      simp

theorem collectChunks_take (p : Pattern) (fd : Nat) (stream : List Nat) (m : Nat)
    (hm : 1 ≤ m) (chunks : List (Nat × Nat)) (acc : List (Nat × List Nat)) :
    (collectChunks p fd stream m chunks acc).take m =
      (acc ++ allMatches p fd stream
        ((chunks.map (fun c => List.range' c.1 (c.2 - c.1))).flatten)).take m := by
  obtain ⟨K, hK, hside⟩ := collectChunks_prefix p fd stream m hm chunks acc
  rw [hK]
  rcases hside with hside | hside
  · rw [List.take_append_eq_append_take, List.take_append_eq_append_take]
    congr 1
    rw [List.take_take]
    congr 1
    omega
  · rw [hside]

theorem collectChunks_sorted (p : Pattern) (fd : Nat) (stream : List Nat) (m : Nat)
    (hm : 1 ≤ m) (chunks : List (Nat × Nat))
    (hps : ((chunks.map (fun c => List.range' c.1 (c.2 - c.1))).flatten).Pairwise (· ≤ ·)) :
    (collectChunks p fd stream m chunks []).Pairwise (posLe · ·) := by
  obtain ⟨K, hK, _⟩ := collectChunks_prefix p fd stream m hm chunks []
  rw [hK]
  simp only [List.nil_append]
  exact (pairwise_allMatches p fd stream _ hps).sublist (List.take_sublist ..)

theorem pyRange_eq (a : Nat) (b : Int) : pyRange a b = List.range' a (b.toNat - a) := by
  rw [pyRange]
  congr 1
  omega

/-- C2 (amended): for `max_positions ≥ 1` the parallel variant returns
exactly the sequential variant's result — same positions, same follow
sequences, ascending by position, at most `max_positions` of them — for
every stream, pattern, start position and worker count, because the
future-collection loop gathers chunk results in strict left-to-right
order before sorting and truncating.  (`max_positions = 0` is the one
divergence, see the counterexample.) -/
theorem claim_C2_amended (p : Pattern) (fd : Nat) (stream : List Nat)
    (m startFrom threads : Nat) (hm : 1 ≤ m) (_hthreads : 1 ≤ threads) :
    findPatternParallel p fd stream m startFrom threads =
      findPatternSequential p fd stream m startFrom ∧
    (findPatternSequential p fd stream m startFrom).Pairwise (posLe · ·) ∧
    (findPatternSequential p fd stream m startFrom).length ≤ m := by
  have hcs : 0 < max 1000 (((stream.length : Int) - p.digits.length + 1).toNat / threads) := by
    have : (0 : Nat) < 1000 := by omega
    omega
  have hjoin := chunkList_positions
    (max 1000 (((stream.length : Int) - p.digits.length + 1).toNat / threads))
    ((stream.length : Int) - p.digits.length + 1).toNat hcs
    (((stream.length : Int) - p.digits.length + 1).toNat - startFrom) startFrom rfl
  have hps : (((chunkList startFrom ((stream.length : Int) - p.digits.length + 1).toNat
      (max 1000 (((stream.length : Int) - p.digits.length + 1).toNat / threads))).map
      (fun c => List.range' c.1 (c.2 - c.1))).flatten).Pairwise (· ≤ ·) := by
    rw [hjoin]
    exact (List.pairwise_lt_range' _ _ 1 (by omega)).imp le_of_lt
  have hsorted := collectChunks_sorted p fd stream m hm _ hps
  have hseq := findPatternSequential_spec p fd stream m startFrom hm
  refine ⟨?_, ?_, ?_⟩
  · rw [findPatternParallel]
    rw [List.mergeSort_of_sorted hsorted]
    rw [collectChunks_take p fd stream m hm _ []]
    simp only [List.nil_append]
    rw [hjoin, hseq, pyRange_eq]
  · rw [hseq, pyRange_eq]
    exact (pairwise_allMatches p fd stream _
      ((List.pairwise_lt_range' _ _ 1 (by omega)).imp le_of_lt)).sublist (List.take_sublist ..)
  · rw [hseq]
    simp

/-- C2 (witness): the amended equality at a concrete 2500-digit stream with
two matches spread across the two parallel chunks, `max_positions = 1`. -/
theorem claim_C2_witness :
    findPatternParallel (Pattern.mk [7] none) 2 c2Stream 1 0 2 =
      findPatternSequential (Pattern.mk [7] none) 2 c2Stream 1 0 ∧
    (findPatternSequential (Pattern.mk [7] none) 2 c2Stream 1 0).Pairwise (posLe · ·) ∧
    (findPatternSequential (Pattern.mk [7] none) 2 c2Stream 1 0).length ≤ 1 :=
  claim_C2_amended (Pattern.mk [7] none) 2 c2Stream 1 0 2 (by decide) (by decide)

theorem c2Stream_length : c2Stream.length = 2500 := by
  rw [c2Stream, List.length_map, List.length_range]

theorem c2Stream_getD (i : Nat) (h : i < 2500) :
    c2Stream.getD i 0 = if i = 500 || i = 1500 then 7 else 0 := by
  have hi : i < c2Stream.length := by rw [c2Stream_length]; exact h
  rw [List.getD_eq_getElem _ 0 hi]
  simp only [c2Stream, List.getElem_map, List.getElem_range]

theorem c2_matchAt_500 : (Pattern.mk [7] none).matchAt c2Stream 500 = some 501 := by
  have hmatch : contiguousMatch (Pattern.mk [7] none).digits (c2Stream.drop 500) = true := by
    rw [contiguousMatch_iff _ _ (by rw [List.length_drop, c2Stream_length]; decide)]
    intro i hi
    simp only [List.length_cons, List.length_nil] at hi
    have hi0 : i = 0 := by omega
    subst hi0
    rw [getD_drop_zero, Nat.add_zero, c2Stream_getD 500 (by omega)]
    decide
  simp only [Pattern.matchAt]
  rw [if_neg (by rw [c2Stream_length]; decide)]
  rw [if_pos (by decide)]
  rw [if_neg (by rw [c2Stream_length]; decide)]
  rw [if_pos hmatch]
  rfl

/-- The post-append break fires immediately when `max_positions = 0`, so the
sequential scan returns the first match rather than none. -/
theorem searchPositions_zero (p : Pattern) (fd : Nat) (stream : List Nat) :
    ∀ (ps : List Nat) (acc : List (Nat × List Nat)),
      searchPositions p fd stream 0 ps acc =
        acc ++ (allMatches p fd stream ps).take 1 := by
  intro ps
  induction ps with
  | nil => intro acc; simp [searchPositions, allMatches]
  | cons q ps ih =>
    intro acc
    cases hmatch : p.matchAt stream q with
    | none =>
      simp only [searchPositions, hmatch]
      rw [ih acc, allMatches_cons_none p fd stream q ps hmatch]
    | some e =>
      simp only [searchPositions, hmatch]
      rw [if_pos (Nat.zero_le _), allMatches_cons_some p fd stream q e ps hmatch]
      simp

/-- C2 (counterexample): at `max_positions = 0` the two variants disagree on
a stream whose two pattern occurrences (positions 500 and 1500) are spread
across the parallel search's two chunks `[0, 1250)` and `[1250, 2500)`: the
sequential scan's post-append break still returns the first match (the scan
returns a nonempty result), while the parallel variant's final truncation
returns the empty list. -/
theorem claim_C2_counterexample :
    chunkList 0 2500 (max 1000 (2500 / 2)) = [(0, 1250), (1250, 2500)] ∧
    findPatternParallel (Pattern.mk [7] none) 2 c2Stream 0 0 2 = [] ∧
    findPatternSequential (Pattern.mk [7] none) 2 c2Stream 0 0 ≠ [] ∧
    findPatternParallel (Pattern.mk [7] none) 2 c2Stream 0 0 2 ≠
      findPatternSequential (Pattern.mk [7] none) 2 c2Stream 0 0 := by
  have hpar : findPatternParallel (Pattern.mk [7] none) 2 c2Stream 0 0 2 = [] := by
    simp [findPatternParallel]
  have hseq : findPatternSequential (Pattern.mk [7] none) 2 c2Stream 0 0 ≠ [] := by
    rw [findPatternSequential, searchPositions_zero, List.nil_append]
    intro hnil
    have hmem : (500, extractFollowDigits 2 c2Stream 501) ∈
        allMatches (Pattern.mk [7] none) 2 c2Stream
          (pyRange 0 ((c2Stream.length : Int) - (Pattern.mk [7] none).digits.length + 1)) := by
      simp only [allMatches]
      apply List.mem_filterMap.mpr
      refine ⟨500, ?_, by rw [c2_matchAt_500]; rfl⟩
      rw [pyRange_eq, c2Stream_length]
      apply List.mem_range'_1.mpr
      refine ⟨by omega, ?_⟩
      simp only [List.length_cons, List.length_nil]
      omega
    generalize hx : allMatches (Pattern.mk [7] none) 2 c2Stream
        (pyRange 0 ((c2Stream.length : Int) - (Pattern.mk [7] none).digits.length + 1)) = am
      at hmem hnil
    cases am with
    | nil => exact absurd hmem (List.not_mem_nil _)
    | cons y ys => simp at hnil
  refine ⟨by decide, hpar, hseq, ?_⟩
  rw [hpar]
  exact fun h => hseq h.symm

/-! ## Totality of the digit loops

As long as the backing file contains at least one digit byte, the cyclic
skip/read loops of `get_pi_digits` succeed from any cursor given enough fuel
(`2 * len + 2` bounds one full scan plus a wrap); the values read are always
decimal digits.  These lemmas let the key-pipeline claims be instantiated on
concrete files without evaluating 10000-step reads in the kernel. -/

theorem getD_mem (l : List Nat) (i : Nat) (h : i < l.length) : l.getD i 0 ∈ l := by
  rw [List.getD_eq_getElem l 0 h]
  exact List.getElem_mem h

theorem no_digit_of_filter_nil (file : List Nat) (pos : Nat)
    (htail : (file.drop pos).filter isDigitByte = []) :
    ∀ k, pos ≤ k → k < file.length → isDigitByte (file.getD k 0) = false := by
  intro k hk1 hk2
  cases hb : isDigitByte (file.getD k 0) with
  | false => rfl
  | true =>
    exfalso
    have hlt2 : k - pos < (file.drop pos).length := by rw [List.length_drop]; omega
    have h1 : (file.drop pos).getD (k - pos) 0 = file.getD k 0 := by
      have hkp : pos + (k - pos) = k := by omega
      rw [getD_drop_zero, hkp]
    have hmem : file.getD k 0 ∈ file.drop pos := by
      rw [← h1]
      exact getD_mem (file.drop pos) (k - pos) hlt2
    have hmf : file.getD k 0 ∈ (file.drop pos).filter isDigitByte :=
      List.mem_filter.mpr ⟨hmem, hb⟩
    rw [htail] at hmf
    exact List.not_mem_nil _ hmf

/-- A cursor at or past the end of the file wraps to 0 before reading. -/
theorem readOne_wrap (file : List Nat) (fuel pos : Nat) (h : file.length ≤ pos) :
    readOne file fuel pos = readOne file fuel 0 := by
  cases fuel with
  | zero => rfl
  | succ f =>
    simp only [readOne, if_pos h]
    rcases Nat.eq_zero_or_pos file.length with h0 | h0
    · rw [if_pos (by omega : file.length ≤ 0)]
    · rw [if_neg (by omega : ¬ file.length ≤ 0)]

theorem readOne_from_zero (file : List Nat) (hd : file.filter isDigitByte ≠ [])
    (fuel : Nat) (hfuel : file.length + 1 ≤ fuel) :
    ∃ d p, readOne file fuel 0 = some (d, p) ∧ d < 10 ∧ p ≤ file.length := by
  have hne : (file.drop 0).filter isDigitByte ≠ [] := by rw [List.drop_zero]; exact hd
  obtain ⟨j, h1, h2, h3, h4, _⟩ := exists_least_digit file 0 hne
  exact ⟨digitVal (file.getD j 0), j + 1,
    readOne_spec file fuel 0 j h1 h2 h3 h4 (by omega), digitVal_lt_ten h3, by omega⟩

/-- Scanning a digit-free tail consumes `len - pos` fuel and wraps to 0. -/
theorem readOne_tail_wrap (file : List Nat) :
    ∀ m pos fuel, pos < file.length → file.length - pos = m →
      (∀ k, pos ≤ k → k < file.length → isDigitByte (file.getD k 0) = false) →
      m ≤ fuel →
      readOne file fuel pos = readOne file (fuel - m) 0 := by
  intro m
  induction m with
  | zero => intro pos fuel h1 h2 _ _; omega
  | succ m ih =>
    intro pos fuel h1 h2 hnd hf
    cases fuel with
    | zero => omega
    | succ f =>
      have hnl : ¬ file.length ≤ pos := by omega
      have hndp : isDigitByte (file.getD pos 0) = false := hnd pos le_rfl h1
      simp only [readOne, if_neg hnl, if_pos h1, hndp, Bool.false_eq_true, if_false]
      rcases le_or_lt file.length (pos + 1) with hw | hw
      · have hm0 : m = 0 := by omega
        subst hm0
        rw [readOne_wrap file f (pos + 1) hw]
        have he : f + 1 - (0 + 1) = f := by omega
        rw [he]
      · have he : f + 1 - (m + 1) = f - m := by omega
        rw [he]
        exact ih (pos + 1) f hw (by omega) (fun k hk1 hk2 => hnd k (by omega) hk2) (by omega)

theorem readOne_total (file : List Nat) (hd : file.filter isDigitByte ≠ [])
    (fuel pos : Nat) (hfuel : 2 * file.length + 2 ≤ fuel) :
    ∃ d p, readOne file fuel pos = some (d, p) ∧ d < 10 ∧ p ≤ file.length := by
  rcases le_or_lt file.length pos with hge | hlt
  · rw [readOne_wrap file fuel pos hge]
    exact readOne_from_zero file hd fuel (by omega)
  · by_cases htail : (file.drop pos).filter isDigitByte = []
    · rw [readOne_tail_wrap file (file.length - pos) pos fuel hlt rfl
        (no_digit_of_filter_nil file pos htail) (by omega)]
      exact readOne_from_zero file hd _ (by omega)
    · obtain ⟨j, h1, h2, h3, h4, _⟩ := exists_least_digit file pos htail
      exact ⟨digitVal (file.getD j 0), j + 1,
        readOne_spec file fuel pos j h1 h2 h3 h4 (by omega), digitVal_lt_ten h3, by omega⟩

theorem readN_total (file : List Nat) (hd : file.filter isDigitByte ≠ [])
    (fuel : Nat) (hfuel : 2 * file.length + 2 ≤ fuel) :
    ∀ L pos, ∃ ds p, readN file fuel L pos = some (ds, p) ∧ ds.length = L ∧
      ∀ x ∈ ds, x < 10 := by
  intro L
  induction L with
  | zero => intro pos; exact ⟨[], pos, rfl, rfl, by simp⟩
  | succ L ih =>
    intro pos
    obtain ⟨d, p1, hr, hdlt, _⟩ := readOne_total file hd fuel pos hfuel
    obtain ⟨ds, p2, hrs, hlen, hball⟩ := ih p1
    refine ⟨d :: ds, p2, ?_, by simp [hlen], ?_⟩
    · simp only [readN, hr, hrs]
    · intro x hx
      rcases List.mem_cons.mp hx with hx | hx
      · subst hx; exact hdlt
      · exact hball x hx

/-- A cursor at or past the end of the file makes the skip loop a no-op. -/
theorem skipOne_stall (file : List Nat) (fuel pos : Nat) (h : file.length ≤ pos)
    (hfuel : 0 < fuel) : skipOne file fuel pos = some pos := by
  cases fuel with
  | zero => omega
  | succ f => simp only [skipOne, if_neg (by omega : ¬ pos < file.length)]

theorem skipOne_tail_wrap (file : List Nat) :
    ∀ m pos fuel, pos < file.length → file.length - pos = m →
      (∀ k, pos ≤ k → k < file.length → isDigitByte (file.getD k 0) = false) →
      m ≤ fuel →
      skipOne file fuel pos = skipOne file (fuel - m) 0 := by
  intro m
  induction m with
  | zero => intro pos fuel h1 h2 _ _; omega
  | succ m ih =>
    intro pos fuel h1 h2 hnd hf
    cases fuel with
    | zero => omega
    | succ f =>
      have hndp : isDigitByte (file.getD pos 0) = false := hnd pos le_rfl h1
      rcases le_or_lt file.length (pos + 1) with hw | hw
      · have hm0 : m = 0 := by omega
        subst hm0
        simp only [skipOne, if_pos h1, hndp, Bool.false_eq_true, if_false, if_pos hw]
        have he : f + 1 - (0 + 1) = f := by omega
        rw [he]
      · simp only [skipOne, if_pos h1, hndp, Bool.false_eq_true, if_false,
          if_neg (by omega : ¬ file.length ≤ pos + 1)]
        have he : f + 1 - (m + 1) = f - m := by omega
        rw [he]
        exact ih (pos + 1) f hw (by omega) (fun k hk1 hk2 => hnd k (by omega) hk2) (by omega)

theorem skipOne_from_zero (file : List Nat) (hd : file.filter isDigitByte ≠ [])
    (fuel : Nat) (hfuel : file.length + 1 ≤ fuel) :
    ∃ p, skipOne file fuel 0 = some p := by
  have hne : (file.drop 0).filter isDigitByte ≠ [] := by rw [List.drop_zero]; exact hd
  obtain ⟨j, h1, h2, h3, h4, _⟩ := exists_least_digit file 0 hne
  exact ⟨j + 1, skipOne_spec file fuel 0 j h1 h2 h3 h4 (by omega)⟩

theorem skipOne_total (file : List Nat) (hd : file.filter isDigitByte ≠ [])
    (fuel pos : Nat) (hfuel : 2 * file.length + 2 ≤ fuel) :
    ∃ p, skipOne file fuel pos = some p := by
  rcases le_or_lt file.length pos with hge | hlt
  · exact ⟨pos, skipOne_stall file fuel pos hge (by omega)⟩
  · by_cases htail : (file.drop pos).filter isDigitByte = []
    · rw [skipOne_tail_wrap file (file.length - pos) pos fuel hlt rfl
        (no_digit_of_filter_nil file pos htail) (by omega)]
      exact skipOne_from_zero file hd _ (by omega)
    · obtain ⟨j, h1, h2, h3, h4, _⟩ := exists_least_digit file pos htail
      exact ⟨j + 1, skipOne_spec file fuel pos j h1 h2 h3 h4 (by omega)⟩

theorem skipN_total (file : List Nat) (hd : file.filter isDigitByte ≠ [])
    (fuel : Nat) (hfuel : 2 * file.length + 2 ≤ fuel) :
    ∀ n pos, ∃ p, skipN file fuel n pos = some p := by
  intro n
  induction n with
  | zero => intro pos; exact ⟨pos, rfl⟩
  | succ n ih =>
    intro pos
    obtain ⟨p1, hp1⟩ := skipOne_total file hd fuel pos hfuel
    obtain ⟨p2, hp2⟩ := ih p1
    exact ⟨p2, by simp only [skipN, hp1, hp2]⟩

/-- With a digit in the file and fuel for a full scan plus wrap, `getDigits`
always returns `length` decimal digits, whatever the start offset. -/
theorem getDigits_total (file : List Nat) (hd : file.filter isDigitByte ≠ [])
    (s L fuel : Nat) (hL : 1 ≤ L) (hfuel : 2 * file.length + 2 ≤ fuel) :
    ∃ ds, getDigits file s L fuel = some ds ∧ ds.length = L ∧ ∀ x ∈ ds, x < 10 := by
  obtain ⟨p, hp⟩ := skipN_total file hd fuel hfuel s (dotPos file + 1)
  obtain ⟨ds, p2, hr, hlen, hbound⟩ := readN_total file hd fuel hfuel L p
  refine ⟨ds, ?_, hlen, hbound⟩
  simp only [getDigits, if_neg (show ¬ L = 0 by omega), hp, hr]

/-! ## Totality of synthetic-stream generation, and streams with no matches -/

theorem zipWith_mod_lt (modulus : Nat) (hm : 0 < modulus) :
    ∀ (r ds : List Nat) (x : Nat),
      x ∈ List.zipWith (fun a d => (a + d) % 256 % modulus) r ds → x < modulus := by
  intro r
  induction r with
  | nil => intro ds x hx; simp at hx
  | cons a t ih =>
    intro ds x hx
    cases ds with
    | nil => simp at hx
    | cons b bs =>
      simp only [List.zipWith_cons_cons] at hx
      rcases List.mem_cons.mp hx with hx | hx
      · subst hx; exact Nat.mod_lt _ hm
      · exact ih bs x hx

theorem foldl_addOffsetChunk_total (file : List Nat) (start len modulus fuel : Nat)
    (hd : file.filter isDigitByte ≠ []) (hfuel : 2 * file.length + 2 ≤ fuel)
    (hm : 0 < modulus) (hlen : 0 < len) :
    ∀ (offs r : List Nat), r.length = len → (∀ x ∈ r, x < modulus) →
      ∃ r', offs.foldl (addOffsetChunk file start len modulus fuel) (some r) = some r' ∧
        r'.length = len ∧ ∀ x ∈ r', x < modulus := by
  intro offs
  induction offs with
  | nil => intro r hr hb; exact ⟨r, rfl, hr, hb⟩
  | cons o rest ih =>
    intro r hr hb
    obtain ⟨ds, hds, hdslen, _⟩ := getDigits_total file hd (o + start) len fuel (by omega) hfuel
    have hstep : addOffsetChunk file start len modulus fuel (some r) o =
        some (List.zipWith (fun a d => (a + d) % 256 % modulus) r ds) := by
      simp only [addOffsetChunk, hds]
    rw [List.foldl_cons, hstep]
    apply ih
    · rw [List.length_zipWith, hr, hdslen]
      exact min_self len
    · exact zipWith_mod_lt modulus hm r ds

theorem generateStreamChunk_total (fileA fileB : List Nat)
    (hdA : fileA.filter isDigitByte ≠ []) (hdB : fileB.filter isDigitByte ≠ [])
    (start stop : Nat) (piOffs eOffs : List Nat) (modulus fuel : Nat)
    (hfA : 2 * fileA.length + 2 ≤ fuel) (hfB : 2 * fileB.length + 2 ≤ fuel)
    (hm : 0 < modulus) (hss : start < stop) :
    ∃ r, generateStreamChunk fileA fileB start stop piOffs eOffs modulus fuel = some r ∧
      r.length = stop - start ∧ ∀ x ∈ r, x < modulus := by
  have hlen : 0 < stop - start := by omega
  obtain ⟨r1, h1, h1len, h1b⟩ := foldl_addOffsetChunk_total fileA start (stop - start)
    modulus fuel hdA hfA hm hlen piOffs (List.replicate (stop - start) 0) (by simp)
    (fun x hx => by rw [List.eq_of_mem_replicate hx]; omega)
  obtain ⟨r2, h2, h2len, h2b⟩ := foldl_addOffsetChunk_total fileB start (stop - start)
    modulus fuel hdB hfB hm hlen eOffs r1 h1len h1b
  refine ⟨r2, ?_, h2len, h2b⟩
  simp only [generateStreamChunk]
  rw [h1]
  exact h2

theorem chunksFold_total (fileA fileB piOffs eOffs : List Nat) (m fuel cs stop : Nat)
    (hdA : fileA.filter isDigitByte ≠ []) (hdB : fileB.filter isDigitByte ≠ [])
    (hfA : 2 * fileA.length + 2 ≤ fuel) (hfB : 2 * fileB.length + 2 ≤ fuel)
    (hm : 0 < m) (hcs : 0 < cs) :
    ∀ D start, stop - start = D →
      ∃ s, (chunkList start stop cs).foldr (fun c acc =>
          match generateStreamChunk fileA fileB c.1 c.2 piOffs eOffs m fuel, acc with
          | some r, some rs => some (r ++ rs)
          | _, _ => none) (some []) = some s ∧
        s.length = stop - start ∧ ∀ x ∈ s, x < m := by
  intro D
  induction D using Nat.strong_induction_on with
  | _ D ih =>
    intro start hD
    by_cases hlt : start < stop
    · obtain ⟨r, hr, hrlen, hrb⟩ := generateStreamChunk_total fileA fileB hdA hdB start
        (min (start + cs) stop) piOffs eOffs m fuel hfA hfB hm (by omega)
      obtain ⟨rs, hrs, hrslen, hrsb⟩ := ih (stop - (start + cs)) (by omega) (start + cs) rfl
      rw [chunkList_cons start stop cs hcs hlt, List.foldr_cons]
      refine ⟨r ++ rs, ?_, ?_, ?_⟩
      · simp only [hrs, hr]
      · rw [List.length_append, hrlen, hrslen]
        omega
      · intro x hx
        rcases List.mem_append.mp hx with h | h
        · exact hrb x h
        · exact hrsb x h
    · have h0 : stop - start = 0 := by omega
      refine ⟨[], ?_, by simp [h0], by simp⟩
      rw [chunkList]
      have hc0 : (stop - start + cs - 1) / cs = 0 := by
        rw [h0, Nat.zero_add]
        exact Nat.div_eq_of_lt (by omega)
      rw [hc0]
      rfl

/-- Stream generation always succeeds on digit-bearing files with positive
modulus and length, and every stream element is below the modulus. -/
theorem generateSyntheticStream_total (fileA fileB piOffs eOffs : List Nat)
    (length m threads fuel : Nat)
    (hdA : fileA.filter isDigitByte ≠ []) (hdB : fileB.filter isDigitByte ≠ [])
    (hfA : 2 * fileA.length + 2 ≤ fuel) (hfB : 2 * fileB.length + 2 ≤ fuel)
    (hm : 0 < m) (hlen : 0 < length) :
    ∃ s, generateSyntheticStream fileA fileB piOffs eOffs length m threads fuel = some s ∧
      s.length = length ∧ ∀ x ∈ s, x < m := by
  have hcs : 0 < max 1 (length / threads) := by omega
  have hne : (chunkList 0 length (max 1 (length / threads))).isEmpty = false := by
    rw [chunkList_cons 0 length (max 1 (length / threads)) hcs hlen]
    rfl
  obtain ⟨s, hs, hslen, hsb⟩ := chunksFold_total fileA fileB piOffs eOffs m fuel
    (max 1 (length / threads)) length hdA hdB hfA hfB hm hcs length 0 (by omega)
  refine ⟨s, ?_, by rw [hslen]; omega, hsb⟩
  simp only [generateSyntheticStream, hne, Bool.false_eq_true, if_false]
  exact hs

/-- A pattern whose first digit is at least the stream's modulus bound can
never match: both the contiguous comparison and the spaced walk test the
first digit against a stream value strictly below it. -/
theorem matchAt_none_of_big (stream : List Nat) (m : Nat) (hbound : ∀ x ∈ stream, x < m)
    (p : Pattern) (d : Nat) (rest : List Nat) (hdig : p.digits = d :: rest) (hd : m ≤ d) :
    ∀ q, p.matchAt stream q = none := by
  intro q
  rcases le_or_lt stream.length q with hq | hq
  · simp only [Pattern.matchAt, if_pos hq]
  · have hne : stream.getD q 0 ≠ d := by
      have := hbound _ (getD_mem stream q hq)
      omega
    simp only [Pattern.matchAt, if_neg (by omega : ¬ stream.length ≤ q)]
    by_cases hc : p.isContiguous = true
    · rw [if_pos hc]
      by_cases hb : stream.length < q + p.digits.length
      · rw [if_pos hb]
      · have hcm : ¬ contiguousMatch p.digits (stream.drop q) = true := by
          intro hcm
          rw [hdig, List.drop_eq_getElem_cons hq] at hcm
          simp only [contiguousMatch, Bool.and_eq_true, decide_eq_true_eq] at hcm
          obtain ⟨h1, _⟩ := hcm
          rw [← List.getD_eq_getElem stream 0 hq] at h1
          exact hne h1.symm
        rw [if_neg hb, if_neg hcm]
    · rw [if_neg hc, hdig]
      show spacedWalk stream (d :: rest) (p.spacing.getD []) q = none
      simp only [spacedWalk, if_neg (by omega : ¬ stream.length ≤ q)]
      rw [if_pos hne]

theorem searchPositions_none (p : Pattern) (fd : Nat) (stream : List Nat) (mp : Nat)
    (hnone : ∀ q, p.matchAt stream q = none) :
    ∀ (ps : List Nat) (acc : List (Nat × List Nat)),
      searchPositions p fd stream mp ps acc = acc := by
  intro ps
  induction ps with
  | nil => intro acc; rfl
  | cons q rest ih =>
    intro acc
    simp only [searchPositions, hnone q]
    exact ih acc

theorem collectChunks_nil_results (p : Pattern) (fd : Nat) (stream : List Nat) (mp : Nat)
    (hsc : ∀ c, searchChunk p fd stream mp c = []) :
    ∀ (chunks : List (Nat × Nat)) (acc : List (Nat × List Nat)),
      collectChunks p fd stream mp chunks acc = acc := by
  intro chunks
  induction chunks with
  | nil => intro acc; rfl
  | cons c rest ih =>
    intro acc
    simp only [collectChunks, hsc c, List.append_nil]
    by_cases hb : mp ≤ acc.length
    · rw [if_pos hb]
    · rw [if_neg hb]
      exact ih acc

/-- A stream on which the pattern matches nowhere makes every search variant
return the empty result list. -/
theorem findPattern_nil (p : Pattern) (fd : Nat) (stream : List Nat)
    (hnone : ∀ q, p.matchAt stream q = none)
    (mp sf : Nat) (threads : Option Nat) (cpu : Nat) :
    findPattern p fd stream mp sf threads cpu = [] := by
  have hsc : ∀ c, searchChunk p fd stream mp c = [] := by
    intro c
    simp only [searchChunk]
    exact searchPositions_none p fd stream mp hnone _ _
  have hseq : findPatternSequential p fd stream mp sf = [] := by
    simp only [findPatternSequential]
    exact searchPositions_none p fd stream mp hnone _ _
  have hpar : ∀ t, findPatternParallel p fd stream mp sf t = [] := by
    intro t
    simp only [findPatternParallel]
    rw [collectChunks_nil_results p fd stream mp hsc _ _]
    simp
  simp only [findPattern]
  split
  · rw [hpar]
    simp
  · rw [hseq]
    simp

/-- `generateOffsetsFromSeed` returns exactly `count` offsets when it
succeeds. -/
theorem genOffsets_length (seed count fuel : Nat) (offs : List Nat)
    (h : generateOffsetsFromSeed seed count fuel = some offs) : offs.length = count := by
  rw [generateOffsetsFromSeed] at h
  by_cases hseed : 2 ^ 32 ≤ seed
  · rw [if_pos hseed] at h
    exact absurd h (by simp)
  · rw [if_neg hseed] at h
    cases hr : randBoundedMany (1000000000 - 1) (genMask (1000000000 - 1)) fuel count
        (mtInit seed) with
    | none =>
      rw [hr] at h
      exact absurd h (by simp)
    | some q =>
      obtain ⟨vs, st⟩ := q
      rw [hr] at h
      have hv : vs = offs := Option.some.inj h
      subst hv
      exact (randBoundedMany_spec (1000000000 - 1) (genMask (1000000000 - 1)) fuel count
        (mtInit seed) vs st hr).1

/-- The follow-sequence list of a key whose pattern's first digit is at least
the modulus is empty for every `max_positions`: the stream's values are all
below the modulus, so the pattern never occurs. -/
theorem followSequences_empty (k : PrivateKey) (env : Env)
    (hdA : env.fileA.filter isDigitByte ≠ []) (hdB : env.fileB.filter isDigitByte ≠ [])
    (hfA : 2 * env.fileA.length + 2 ≤ env.digitFuel)
    (hfB : 2 * env.fileB.length + 2 ≤ env.digitFuel)
    (hm : 0 < k.modulus) (hoffs : 0 < k.numOffsets)
    (hpi : (generateOffsetsFromSeed k.piSeed k.numOffsets env.mtFuel).isSome = true)
    (he : (generateOffsetsFromSeed k.eSeed k.numOffsets env.mtFuel).isSome = true)
    (d : Nat) (rest : List Nat) (hdig : k.pattern.digits = d :: rest) (hd : k.modulus ≤ d) :
    ∀ m, k.getFollowSequences m env = some [] := by
  intro m
  obtain ⟨po, hpo⟩ := Option.isSome_iff_exists.mp hpi
  obtain ⟨eo, heo⟩ := Option.isSome_iff_exists.mp he
  have hpolen : po.length = k.numOffsets := genOffsets_length _ _ _ _ hpo
  have hpe : po.isEmpty = false := by
    cases po with
    | nil => simp at hpolen; omega
    | cons a t => rfl
  obtain ⟨s, hs, hslen, hsb⟩ := generateSyntheticStream_total env.fileA env.fileB po eo
    10000 k.modulus (max 1 (env.cpuCount - 1)) env.digitFuel hdA hdB hfA hfB hm (by omega)
  have hgen : k.generateStream env = some s := by
    simp only [PrivateKey.generateStream, getSyntheticStream, hpo, heo,
      StreamGenerator.generate, hpe, Bool.false_and, Bool.false_eq_true, if_false, hs]
  simp only [PrivateKey.getFollowSequences, PrivateKey.findPatternMatches, hgen]
  rw [findPattern_nil k.pattern k.followDigits s
    (matchAt_none_of_big s k.modulus hsb k.pattern d rest hdig hd) m 0 none env.cpuCount]
  rfl

/-- `get_public_key` packages the hash of whatever follow sequences were
computed; stated over a variable key so that instantiating it on concrete
keys never forces evaluation of the stream pipeline. -/
theorem getPublicKey_of_followSequences (k : PrivateKey) (m : Nat) (env : Env)
    (seqs : List (List Nat)) (h : k.getFollowSequences m env = some seqs) :
    k.getPublicKey m env = some ⟨hashFollowSequences seqs, m, k.followDigits⟩ := by
  simp only [PrivateKey.getPublicKey, h]

/-- C4: binding a public key from a private key and then verifying the pair
succeeds: `verify_key_pair` recomputes the follow sequences with
`public.max_positions` — the same `max_positions` the public key was bound
with — hashes them the same way, and the tokens compare equal. -/
theorem claim_C4 (k : PrivateKey) (m : Nat) (env : Env) (pub : PublicKey)
    (h : k.getPublicKey m env = some pub) :
    verifyKeyPair k pub env = some true := by
  cases hs : k.getFollowSequences m env with
  | none =>
    simp only [PrivateKey.getPublicKey, hs] at h
    exact Option.noConfusion h
  | some seqs =>
    simp only [PrivateKey.getPublicKey, hs, Option.some.injEq] at h
    subst h
    simp only [verifyKeyPair, hs]
    simp

/-- C4 witness: a concrete key (MT-derived offsets from seeds 42/43 over the
repository's bundled π prefix used as both digit files) binds a public key at
`max_positions = 1` and verifies against it. -/
theorem claim_C4_witness :
    PrivateKey.getPublicKey ⟨42, 43, ⟨[10], none⟩, 1, 10, 2⟩ 1
      ⟨sevenPiBytes, sevenPiBytes, 2, 50, 20⟩ = some ⟨hashFollowSequences [], 1, 2⟩ ∧
    verifyKeyPair ⟨42, 43, ⟨[10], none⟩, 1, 10, 2⟩ ⟨hashFollowSequences [], 1, 2⟩
      ⟨sevenPiBytes, sevenPiBytes, 2, 50, 20⟩ = some true := by
  have hempty : ∀ m, PrivateKey.getFollowSequences ⟨42, 43, ⟨[10], none⟩, 1, 10, 2⟩ m
      ⟨sevenPiBytes, sevenPiBytes, 2, 50, 20⟩ = some [] :=
    followSequences_empty ⟨42, 43, ⟨[10], none⟩, 1, 10, 2⟩
      ⟨sevenPiBytes, sevenPiBytes, 2, 50, 20⟩ (by decide) (by decide) (by decide) (by decide)
      (by decide) (by decide) (by decide) (by decide) 10 [] rfl (by decide)
  have h1 : PrivateKey.getPublicKey ⟨42, 43, ⟨[10], none⟩, 1, 10, 2⟩ 1
      ⟨sevenPiBytes, sevenPiBytes, 2, 50, 20⟩ = some ⟨hashFollowSequences [], 1, 2⟩ :=
    getPublicKey_of_followSequences ⟨42, 43, ⟨[10], none⟩, 1, 10, 2⟩ 1
      ⟨sevenPiBytes, sevenPiBytes, 2, 50, 20⟩ [] (hempty 1)
  exact ⟨h1, claim_C4 ⟨42, 43, ⟨[10], none⟩, 1, 10, 2⟩ 1
    ⟨sevenPiBytes, sevenPiBytes, 2, 50, 20⟩ ⟨hashFollowSequences [], 1, 2⟩ h1⟩

/-- C10: when pattern search yields no matches for two private keys, both
keys' verification tokens are `hashFollowSequences []` — the hex SHA-256 of
the empty string, an expression independent of every private-key field — and
each private key verifies successfully against the other key's public key. -/
theorem claim_C10 (k1 k2 : PrivateKey) (env1 env2 : Env) (m1 m2 : Nat)
    (h1 : ∀ m, k1.getFollowSequences m env1 = some [])
    (h2 : ∀ m, k2.getFollowSequences m env2 = some []) :
    hashFollowSequences [] = bytesToHexString (sha256 (strBytes emptyStr)) ∧
    k1.getPublicKey m1 env1 = some ⟨hashFollowSequences [], m1, k1.followDigits⟩ ∧
    k2.getPublicKey m2 env2 = some ⟨hashFollowSequences [], m2, k2.followDigits⟩ ∧
    verifyKeyPair k2 ⟨hashFollowSequences [], m1, k1.followDigits⟩ env2 = some true ∧
    verifyKeyPair k1 ⟨hashFollowSequences [], m2, k2.followDigits⟩ env1 = some true := by
  refine ⟨rfl, ?_, ?_, ?_, ?_⟩
  · simp only [PrivateKey.getPublicKey, h1 m1]
  · simp only [PrivateKey.getPublicKey, h2 m2]
  · simp only [verifyKeyPair, h2 m1]
    simp
  · simp only [verifyKeyPair, h1 m2]
    simp

/-- C10 witness: two concrete keys with different seeds and follow-digit
counts, never-matching patterns, and different `max_positions`; both tokens
are the empty-string hash and the keys cross-verify. -/
theorem claim_C10_witness :
    hashFollowSequences [] = bytesToHexString (sha256 (strBytes emptyStr)) ∧
    PrivateKey.getPublicKey ⟨42, 43, ⟨[10], none⟩, 1, 10, 2⟩ 1
      ⟨sevenPiBytes, sevenPiBytes, 2, 50, 20⟩ = some ⟨hashFollowSequences [], 1, 2⟩ ∧
    PrivateKey.getPublicKey ⟨43, 42, ⟨[10], none⟩, 1, 10, 3⟩ 2
      ⟨sevenPiBytes, sevenPiBytes, 2, 50, 20⟩ = some ⟨hashFollowSequences [], 2, 3⟩ ∧
    verifyKeyPair ⟨43, 42, ⟨[10], none⟩, 1, 10, 3⟩ ⟨hashFollowSequences [], 1, 2⟩
      ⟨sevenPiBytes, sevenPiBytes, 2, 50, 20⟩ = some true ∧
    verifyKeyPair ⟨42, 43, ⟨[10], none⟩, 1, 10, 2⟩ ⟨hashFollowSequences [], 2, 3⟩
      ⟨sevenPiBytes, sevenPiBytes, 2, 50, 20⟩ = some true := by
  have hempty1 : ∀ m, PrivateKey.getFollowSequences ⟨42, 43, ⟨[10], none⟩, 1, 10, 2⟩ m
      ⟨sevenPiBytes, sevenPiBytes, 2, 50, 20⟩ = some [] :=
    followSequences_empty ⟨42, 43, ⟨[10], none⟩, 1, 10, 2⟩
      ⟨sevenPiBytes, sevenPiBytes, 2, 50, 20⟩ (by decide) (by decide) (by decide) (by decide)
      (by decide) (by decide) (by decide) (by decide) 10 [] rfl (by decide)
  have hempty2 : ∀ m, PrivateKey.getFollowSequences ⟨43, 42, ⟨[10], none⟩, 1, 10, 3⟩ m
      ⟨sevenPiBytes, sevenPiBytes, 2, 50, 20⟩ = some [] :=
    followSequences_empty ⟨43, 42, ⟨[10], none⟩, 1, 10, 3⟩
      ⟨sevenPiBytes, sevenPiBytes, 2, 50, 20⟩ (by decide) (by decide) (by decide) (by decide)
      (by decide) (by decide) (by decide) (by decide) 10 [] rfl (by decide)
  exact claim_C10 ⟨42, 43, ⟨[10], none⟩, 1, 10, 2⟩ ⟨43, 42, ⟨[10], none⟩, 1, 10, 3⟩
    ⟨sevenPiBytes, sevenPiBytes, 2, 50, 20⟩ ⟨sevenPiBytes, sevenPiBytes, 2, 50, 20⟩
    1 2 hempty1 hempty2

end TCrypt
